import Mathlib

/-!
Verification of the rendering core of a small path tracer written in Rust
(`aabb.rs`, `bvh.rs`, `obj.rs`, `aarect.rs`, `material.rs`, `texture.rs`,
`util.rs`, `main.rs`).

Modelling conventions.

The source computes in IEEE-754 `f32`.  We embed `f32` as an idealized
float `F32`: an exact rational together with the special values plus
infinity, minus infinity and a single NaN.  Rounding is not modelled
(arithmetic on finite values is exact rational arithmetic), the sign of
zero is not modelled (the source never divides by a negative zero on the
paths treated here), and all NaNs are identified.  The special-value
behaviour (division by zero giving infinities, `0 * inf = NaN`,
comparisons with NaN being false, the NaN-discarding `f32::min` /
`f32::max`) follows IEEE and is exactly what the slab test and the
ray-colour loop of the source rely on.

`f32::sqrt` is embedded as the exact rational square root when the
argument is a rational square, and as an unspecified rational
approximation otherwise; no theorem below depends on the value of a
square root beyond nonnegativity.  `acos`, `atan2` and `pi`, which the
sphere intersection uses only to produce texture coordinates, are taken
as parameters (a `Trig` record): every theorem holds for all
interpretations.

Scene objects implementing the Rust trait `Hittable` (`Sphere`, the
three axis rectangles, `BvhNode`, `Rotate`, `Translate`) are embedded as
one inductive type `Hittable` with `Hittable.hit` mirroring each `hit`
method.  `HittableList`, which in the source is a separate struct and
not a trait implementor, is a `List Hittable` with the scan
`HittableList.hit`.  Materials are abstract: a hit stores a material tag
and the behaviour (`hack_solid`, `emitted`, `scatter`) is supplied as
interpretation functions, matching the trait-object indirection of the
source; scattering randomness is supplied as explicit arguments.
-/

/-- Idealized `f32`: exact rationals plus the IEEE special values.
Rounding and the sign of zero are not modelled; all NaNs are one `nan`. -/
inductive F32 where
  | nan : F32
  | pinf : F32
  | ninf : F32
  | fin : ℚ → F32
deriving DecidableEq

namespace F32

/-- Negation. -/
def neg : F32 → F32
  | nan => nan
  | pinf => ninf
  | ninf => pinf
  | fin q => fin (-q)

/-- Addition, IEEE style: `inf + (-inf) = NaN`. -/
def add : F32 → F32 → F32
  | nan, _ => nan
  | _, nan => nan
  | pinf, ninf => nan
  | ninf, pinf => nan
  | pinf, _ => pinf
  | _, pinf => pinf
  | ninf, _ => ninf
  | _, ninf => ninf
  | fin a, fin b => fin (a + b)

/-- Subtraction as addition of the negation (exact for this model,
which has no signed zero). -/
def sub (a b : F32) : F32 := add a (neg b)

/-- Multiplication, IEEE style: `0 * inf = NaN`. -/
def mul : F32 → F32 → F32
  | nan, _ => nan
  | _, nan => nan
  | pinf, pinf => pinf
  | pinf, ninf => ninf
  | ninf, pinf => ninf
  | ninf, ninf => pinf
  | pinf, fin q => if 0 < q then pinf else if q < 0 then ninf else nan
  | ninf, fin q => if 0 < q then ninf else if q < 0 then pinf else nan
  | fin q, pinf => if 0 < q then pinf else if q < 0 then ninf else nan
  | fin q, ninf => if 0 < q then ninf else if q < 0 then pinf else nan
  | fin a, fin b => fin (a * b)

/-- Division, IEEE style: `x / 0` is a signed infinity for `x ≠ 0`
(the zero is treated as `+0`, signed zero being unmodelled), `0 / 0`,
`inf / inf` and anything with NaN are NaN, `finite / inf = 0`. -/
def div : F32 → F32 → F32
  | nan, _ => nan
  | _, nan => nan
  | pinf, pinf => nan
  | pinf, ninf => nan
  | ninf, pinf => nan
  | ninf, ninf => nan
  | pinf, fin q => if q < 0 then ninf else pinf
  | ninf, fin q => if q < 0 then pinf else ninf
  | fin _, pinf => fin 0
  | fin _, ninf => fin 0
  | fin a, fin b =>
    if b = 0 then
      if 0 < a then pinf else if a < 0 then ninf else nan
    else fin (a / b)

/-- Strict less-than; any comparison with NaN is false. -/
def lt : F32 → F32 → Bool
  | nan, _ => false
  | _, nan => false
  | ninf, ninf => false
  | ninf, _ => true
  | _, ninf => false
  | pinf, _ => false
  | fin _, pinf => true
  | fin a, fin b => decide (a < b)

/-- Less-or-equal; any comparison with NaN is false. -/
def le : F32 → F32 → Bool
  | nan, _ => false
  | _, nan => false
  | ninf, _ => true
  | _, ninf => false
  | _, pinf => true
  | pinf, fin _ => false
  | fin a, fin b => decide (a ≤ b)

/-- Strict greater-than (`a > b` is `b < a`). -/
def gt (a b : F32) : Bool := lt b a

/-- `f32::max`: if one argument is NaN the other is returned. -/
def max (a b : F32) : F32 :=
  if a = nan then b else if b = nan then a else if lt a b then b else a

/-- `f32::min`: if one argument is NaN the other is returned. -/
def min (a b : F32) : F32 :=
  if a = nan then b else if b = nan then a else if lt b a then b else a

/-- Exact rational square root for rational squares, an unspecified
nonnegative rational otherwise (no theorem depends on the inexact case). -/
def sqrtQ (q : ℚ) : ℚ := (Nat.sqrt q.num.toNat : ℚ) / (Nat.sqrt q.den : ℚ)

/-- `f32::sqrt`: NaN for negative arguments. -/
def sqrt : F32 → F32
  | nan => nan
  | pinf => pinf
  | ninf => nan
  | fin q => if q < 0 then nan else fin (sqrtQ q)

/-- `f32::clamp` (`clamp(lo, hi)`): NaN propagates. -/
def clamp (x lo hi : F32) : F32 := if lt x lo then lo else if gt x hi then hi else x

/-- `f32::powf` with a small natural exponent, as repeated multiplication. -/
def pow (x : F32) : ℕ → F32
  | 0 => fin 1
  | n + 1 => mul x (pow x n)

/-- `f32::total_cmp`: a total order with NaN largest (the source only
ever sorts finite values, so the placement of NaN is irrelevant there). -/
def totalCmp : F32 → F32 → Ordering
  | nan, nan => .eq
  | nan, _ => .gt
  | _, nan => .lt
  | pinf, pinf => .eq
  | pinf, _ => .gt
  | _, pinf => .lt
  | ninf, ninf => .eq
  | ninf, _ => .lt
  | _, ninf => .gt
  | fin a, fin b => compare a b

/-- Rust saturating cast `as u8` (truncation toward zero, NaN to 0). -/
def castU8 : F32 → ℕ
  | nan => 0
  | pinf => 255
  | ninf => 0
  | fin q => if q < 0 then 0 else Min.min q.floor.toNat 255

/-- Rust saturating cast `as u32` (truncation toward zero, NaN to 0). -/
def castU32 : F32 → ℕ
  | nan => 0
  | pinf => 4294967295
  | ninf => 0
  | fin q => if q < 0 then 0 else Min.min q.floor.toNat 4294967295

/-- Finiteness predicate. -/
def isFin : F32 → Bool
  | fin _ => true
  | _ => false

end F32

/-- 3-component vector over idealized floats (`glam`/`bevy_math` `Vec3`). -/
structure V3 where
  x : F32
  y : F32
  z : F32
deriving DecidableEq

namespace V3

/-- Componentwise addition. -/
def add (a b : V3) : V3 := ⟨F32.add a.x b.x, F32.add a.y b.y, F32.add a.z b.z⟩

/-- Componentwise subtraction. -/
def sub (a b : V3) : V3 := ⟨F32.sub a.x b.x, F32.sub a.y b.y, F32.sub a.z b.z⟩

/-- Componentwise negation. -/
def neg (a : V3) : V3 := ⟨F32.neg a.x, F32.neg a.y, F32.neg a.z⟩

/-- Scalar multiplication. -/
def smul (s : F32) (a : V3) : V3 := ⟨F32.mul s a.x, F32.mul s a.y, F32.mul s a.z⟩

/-- Division of a vector by a scalar (componentwise, as in `glam`). -/
def divS (a : V3) (s : F32) : V3 := ⟨F32.div a.x s, F32.div a.y s, F32.div a.z s⟩

/-- Dot product. -/
def dot (a b : V3) : F32 :=
  F32.add (F32.add (F32.mul a.x b.x) (F32.mul a.y b.y)) (F32.mul a.z b.z)

/-- `Vec3::length_squared`. -/
def lengthSq (a : V3) : F32 := dot a a

/-- `Vec3::length`. -/
def length (a : V3) : F32 := F32.sqrt (lengthSq a)

/-- `Vec3::splat`. -/
def splat (s : F32) : V3 := ⟨s, s, s⟩

/-- Componentwise `Vec3::min` (built on `f32::min`). -/
def vmin (a b : V3) : V3 := ⟨F32.min a.x b.x, F32.min a.y b.y, F32.min a.z b.z⟩

/-- Componentwise `Vec3::max` (built on `f32::max`). -/
def vmax (a b : V3) : V3 := ⟨F32.max a.x b.x, F32.max a.y b.y, F32.max a.z b.z⟩

/-- `Vec3::to_array` indexing: component 0, 1 or 2. -/
def get (a : V3) : Fin 3 → F32
  | 0 => a.x
  | 1 => a.y
  | 2 => a.z

/-- All three components finite. -/
def allFin (a : V3) : Bool := a.x.isFin && a.y.isFin && a.z.isFin

end V3

/-- 4-component colour (`Vec4`; RGB plus an alpha/weight channel). -/
structure Col where
  x : F32
  y : F32
  z : F32
  w : F32
deriving DecidableEq

namespace Col

/-- Componentwise addition. -/
def add (a b : Col) : Col :=
  ⟨F32.add a.x b.x, F32.add a.y b.y, F32.add a.z b.z, F32.add a.w b.w⟩

/-- Componentwise multiplication (`Vec4 * Vec4`). -/
def mul (a b : Col) : Col :=
  ⟨F32.mul a.x b.x, F32.mul a.y b.y, F32.mul a.z b.z, F32.mul a.w b.w⟩

/-- `Vec4::splat`. -/
def splat (s : F32) : Col := ⟨s, s, s, s⟩

end Col

/-- A ray: origin plus direction (`types.rs`). -/
structure Ray where
  origin : V3
  direction : V3
deriving DecidableEq

/-- `Ray::at`: `origin + direction * t`. -/
def Ray.at (r : Ray) (t : F32) : V3 := V3.add r.origin (V3.smul t r.direction)

/-- Axis-aligned bounding box (`aabb.rs`). -/
structure AABB where
  min : V3
  max : V3
deriving DecidableEq

namespace AABB

/-- `AABB::surrounding_box`: componentwise min of the minima and max of
the maxima. -/
def surrounding_box (a b : AABB) : AABB :=
  ⟨V3.vmin a.min b.min, V3.vmax a.max b.max⟩

/-- One axis of the slab test: compute the entry/exit parameters from the
inverse direction component, swap when that inverse is negative, and
tighten the running interval. -/
def slabAxis (minC maxC oC dC : F32) (acc : F32 × F32) : F32 × F32 :=
  let invD := F32.div (F32.fin 1) dC
  let t0 := F32.mul (F32.sub minC oC) invD
  let t1 := F32.mul (F32.sub maxC oC) invD
  let p := if F32.lt invD (F32.fin 0) then (t1, t0) else (t0, t1)
  (F32.max p.1 acc.1, F32.min p.2 acc.2)

/-- `AABB::hit`: the three-axis slab test with early rejection as soon as
the running interval becomes empty (`t_max <= t_min`). -/
def hit (b : AABB) (r : Ray) (tmin tmax : F32) : Bool :=
  let s1 := slabAxis b.min.x b.max.x r.origin.x r.direction.x (tmin, tmax)
  if F32.le s1.2 s1.1 then false else
  let s2 := slabAxis b.min.y b.max.y r.origin.y r.direction.y s1
  if F32.le s2.2 s2.1 then false else
  let s3 := slabAxis b.min.z b.max.z r.origin.z r.direction.z s2
  if F32.le s3.2 s3.1 then false else true

end AABB

/-- The per-intersection record (`obj.rs` `HitResult`); the material is a
tag of an abstract type `μ`, mirroring the source's material reference. -/
structure HitRes (μ : Type) where
  position : V3
  normal : V3
  t : F32
  frontFace : Bool
  mat : μ
  u : F32
  v : F32
deriving DecidableEq

/-- Interpretations of the transcendental functions used only for sphere
texture coordinates; every theorem holds for all interpretations. -/
structure Trig where
  facos : F32 → F32
  fatan2 : F32 → F32 → F32
  fpi : F32

/-- The rotation axis tag of the `Rotate` wrapper. -/
inductive RAxis where
  | X : RAxis
  | Y : RAxis
  | Z : RAxis
deriving DecidableEq

/-- The three `RotateVec3` implementations of `obj.rs`. -/
def rotAxis : RAxis → V3 → F32 → F32 → V3
  | .X, v, sinT, cosT =>
    ⟨v.x, F32.sub (F32.mul v.y cosT) (F32.mul v.z sinT),
      F32.add (F32.mul v.y sinT) (F32.mul v.z cosT)⟩
  | .Y, v, sinT, cosT =>
    ⟨F32.add (F32.mul v.x cosT) (F32.mul v.z sinT), v.y,
      F32.add (F32.mul (F32.neg v.x) sinT) (F32.mul v.z cosT)⟩
  | .Z, v, sinT, cosT =>
    ⟨F32.sub (F32.mul v.x cosT) (F32.mul v.y sinT),
      F32.add (F32.mul v.x sinT) (F32.mul v.y cosT), v.z⟩

/-- The implementors of the Rust `Hittable` trait, as one inductive type:
sphere, the three axis rectangles, BVH node, rotation wrapper and
translation wrapper.  `BvhNode`, `Rotate` and `Translate` carry the
bounding box their constructors precompute; `Rotate` carries the stored
`sin θ` / `cos θ` fields. -/
inductive Hittable (μ : Type) where
  | sphere (center : V3) (radius : F32) (mat : μ)
  | xyRect (x0 x1 y0 y1 z : F32) (mat : μ)
  | xzRect (x0 x1 z0 z1 y : F32) (mat : μ)
  | yzRect (y0 y1 z0 z1 x : F32) (mat : μ)
  | bvhnode (left right : Hittable μ) (box : AABB)
  | rotate (ax : RAxis) (inner : Hittable μ) (box : AABB) (sinT cosT : F32)
  | translate (inner : Hittable μ) (offset : V3) (box : AABB)
deriving DecidableEq

namespace Hittable

/-- The epsilon padding (`0.0001`) the axis rectangles put on their flat
axis. -/
def rectPad : F32 := F32.fin (1 / 10000)

/-- The rectangle plane parameter `t = (plane - origin_c) / direction_c`
(the first line of each rectangle `hit`). -/
def planeT (plane oc dc : F32) : F32 := F32.div (F32.sub plane oc) dc

/-- Sphere intersection: `oc = origin - center`. -/
def sphOC (center : V3) (ray : Ray) : V3 := V3.sub ray.origin center

/-- Sphere intersection: `a = |direction|^2`. -/
def sphA (ray : Ray) : F32 := V3.lengthSq ray.direction

/-- Sphere intersection: `half_b = oc . direction`. -/
def sphHalfB (center : V3) (ray : Ray) : F32 :=
  V3.dot (sphOC center ray) ray.direction

/-- Sphere intersection: `c = |oc|^2 - radius^2`. -/
def sphC (center : V3) (radius : F32) (ray : Ray) : F32 :=
  F32.sub (V3.lengthSq (sphOC center ray)) (F32.mul radius radius)

/-- Sphere intersection: the discriminant `half_b^2 - a c`. -/
def sphDisc (center : V3) (radius : F32) (ray : Ray) : F32 :=
  F32.sub (F32.mul (sphHalfB center ray) (sphHalfB center ray))
    (F32.mul (sphA ray) (sphC center radius ray))

/-- Sphere intersection: the smaller quadratic root
`(-half_b - sqrt disc) / a` tried first. -/
def sphRoot1 (center : V3) (radius : F32) (ray : Ray) : F32 :=
  F32.div (F32.sub (F32.neg (sphHalfB center ray))
    (F32.sqrt (sphDisc center radius ray))) (sphA ray)

/-- Sphere intersection: the larger quadratic root
`(-half_b + sqrt disc) / a` used as fallback. -/
def sphRoot2 (center : V3) (radius : F32) (ray : Ray) : F32 :=
  F32.div (F32.add (F32.neg (sphHalfB center ray))
    (F32.sqrt (sphDisc center radius ray))) (sphA ray)

/-- `bounding_box` of each variant: sphere is center plus/minus radius,
rectangles are padded on the flat axis, the wrappers return their stored
box. -/
def bounding_box : Hittable μ → AABB
  | sphere c r _ => ⟨V3.sub c (V3.splat r), V3.add c (V3.splat r)⟩
  | xyRect x0 x1 y0 y1 z _ =>
    ⟨⟨x0, y0, F32.sub z rectPad⟩, ⟨x1, y1, F32.add z rectPad⟩⟩
  | xzRect x0 x1 z0 z1 y _ =>
    ⟨⟨x0, F32.sub y rectPad, z0⟩, ⟨x1, F32.add y rectPad, z1⟩⟩
  | yzRect y0 y1 z0 z1 x _ =>
    ⟨⟨F32.sub x rectPad, y0, z0⟩, ⟨F32.add x rectPad, y1, z1⟩⟩
  | bvhnode _ _ box => box
  | rotate _ _ box _ _ => box
  | translate _ _ box => box

/-- `hit` of every variant, mirroring the respective Rust `hit` methods.
`tr` interprets `acos`/`atan2`/`pi`; `hackI` interprets the material's
`hack_solid` transparency predicate. -/
def hit (tr : Trig) (hackI : μ → F32 → F32 → V3 → Bool) :
    Hittable μ → Ray → F32 → F32 → Option (HitRes μ)
  | sphere center radius mat, ray, tmin, tmax =>
    if F32.lt (sphDisc center radius ray) (F32.fin 0) then none else
    let root1 := sphRoot1 center radius ray
    let root2 := sphRoot2 center radius ray
    let root? :=
      if F32.lt root1 tmin || F32.gt root1 tmax then
        if F32.lt root2 tmin || F32.gt root2 tmax then none else some root2
      else some root1
    match root? with
    | none => none
    | some t =>
      let p := ray.at t
      let outwardNormal := V3.divS (V3.sub p center) radius
      let frontFace := F32.lt (V3.dot ray.direction outwardNormal) (F32.fin 0)
      let normal := if frontFace then outwardNormal else V3.neg outwardNormal
      let theta := tr.facos (F32.neg p.y)
      let phi := F32.add (tr.fatan2 (F32.neg p.z) p.x) tr.fpi
      let u := F32.div phi (F32.mul (F32.fin 2) tr.fpi)
      let v := F32.div theta tr.fpi
      if hackI mat u v p then
        some ⟨p, normal, t, frontFace, mat, u, v⟩
      else none
  | xyRect x0 x1 y0 y1 z mat, ray, tmin, tmax =>
    let t := planeT z ray.origin.z ray.direction.z
    if F32.lt t tmin || F32.gt t tmax then none else
    let x := F32.add ray.origin.x (F32.mul t ray.direction.x)
    let y := F32.add ray.origin.y (F32.mul t ray.direction.y)
    if F32.lt x x0 || F32.gt x x1 || F32.lt y y0 || F32.gt y y1 then none else
    let outwardNormal : V3 := ⟨F32.fin 0, F32.fin 0, F32.fin 1⟩
    let frontFace := F32.lt (V3.dot ray.direction outwardNormal) (F32.fin 0)
    let normal := if frontFace then outwardNormal else V3.neg outwardNormal
    let position := ray.at t
    let u := F32.div (F32.sub x x0) (F32.sub x1 x0)
    let v := F32.div (F32.sub y y0) (F32.sub y1 y0)
    if hackI mat u v position then
      some ⟨position, normal, t, frontFace, mat, u, v⟩
    else none
  | xzRect x0 x1 z0 z1 y mat, ray, tmin, tmax =>
    let t := planeT y ray.origin.y ray.direction.y
    if F32.lt t tmin || F32.gt t tmax then none else
    let x := F32.add ray.origin.x (F32.mul t ray.direction.x)
    let z := F32.add ray.origin.z (F32.mul t ray.direction.z)
    if F32.lt x x0 || F32.gt x x1 || F32.lt z z0 || F32.gt z z1 then none else
    let outwardNormal : V3 := ⟨F32.fin 0, F32.fin 1, F32.fin 0⟩
    let frontFace := F32.lt (V3.dot ray.direction outwardNormal) (F32.fin 0)
    let normal := if frontFace then outwardNormal else V3.neg outwardNormal
    let position := ray.at t
    let u := F32.div (F32.sub x x0) (F32.sub x1 x0)
    let v := F32.div (F32.sub z z0) (F32.sub z1 z0)
    if hackI mat u v position then
      some ⟨position, normal, t, frontFace, mat, u, v⟩
    else none
  | yzRect y0 y1 z0 z1 x mat, ray, tmin, tmax =>
    let t := planeT x ray.origin.x ray.direction.x
    if F32.lt t tmin || F32.gt t tmax then none else
    let y := F32.add ray.origin.y (F32.mul t ray.direction.y)
    let z := F32.add ray.origin.z (F32.mul t ray.direction.z)
    if F32.lt y y0 || F32.gt y y1 || F32.lt z z0 || F32.gt z z1 then none else
    let outwardNormal : V3 := ⟨F32.fin 1, F32.fin 0, F32.fin 0⟩
    let frontFace := F32.lt (V3.dot ray.direction outwardNormal) (F32.fin 0)
    let normal := if frontFace then outwardNormal else V3.neg outwardNormal
    let position := ray.at t
    let u := F32.div (F32.sub y y0) (F32.sub y1 y0)
    let v := F32.div (F32.sub z z0) (F32.sub z1 z0)
    if hackI mat u v position then
      some ⟨position, normal, t, frontFace, mat, u, v⟩
    else none
  | bvhnode left right box, ray, tmin, tmax =>
    if !box.hit ray tmin tmax then none else
    match hit tr hackI left ray tmin tmax with
    | some res =>
      match hit tr hackI right ray tmin res.t with
      | some rr => some rr
      | none => some res
    | none => hit tr hackI right ray tmin tmax
  | rotate ax inner _ sinT cosT, ray, tmin, tmax =>
    let origin := rotAxis ax ray.origin (F32.neg sinT) cosT
    let direction := rotAxis ax ray.direction (F32.neg sinT) cosT
    let rotatedRay : Ray := ⟨origin, direction⟩
    match hit tr hackI inner rotatedRay tmin tmax with
    | none => none
    | some res =>
      let p := rotAxis ax res.position sinT cosT
      let normal0 := rotAxis ax res.normal sinT cosT
      let frontFace := F32.lt (V3.dot rotatedRay.direction normal0) (F32.fin 0)
      let normal := if frontFace then normal0 else V3.neg normal0
      some { res with position := p, frontFace := frontFace, normal := normal }
  | translate inner offset _, ray, tmin, tmax =>
    let movedRay : Ray := ⟨V3.sub ray.origin offset, ray.direction⟩
    match hit tr hackI inner movedRay tmin tmax with
    | none => none
    | some res =>
      let frontFace := F32.lt (V3.dot movedRay.direction res.normal) (F32.fin 0)
      let normal := if frontFace then res.normal else V3.neg res.normal
      some { res with position := V3.add res.position offset,
                      frontFace := frontFace, normal := normal }

end Hittable

/-- The scene container of `obj.rs`: a plain list of `Hittable`s. -/
def HittableList (μ : Type) : Type := List (Hittable μ)

/-- The loop body of `HittableList::hit`: scan carrying the best hit so
far and the shrunken upper bound `closest`. -/
def HittableList.hitGo (tr : Trig) (hackI : μ → F32 → F32 → V3 → Bool)
    (ray : Ray) (tmin : F32) :
    List (Hittable μ) → Option (HitRes μ) → F32 → Option (HitRes μ)
  | [], best, _ => best
  | o :: os, best, closest =>
    match o.hit tr hackI ray tmin closest with
    | some res => HittableList.hitGo tr hackI ray tmin os (some res) res.t
    | none => HittableList.hitGo tr hackI ray tmin os best closest

/-- `HittableList::hit`: linear scan, starting from no hit and the full
interval. -/
def HittableList.hit (tr : Trig) (hackI : μ → F32 → F32 → V3 → Bool)
    (objs : HittableList μ) (ray : Ray) (tmin tmax : F32) : Option (HitRes μ) :=
  HittableList.hitGo tr hackI ray tmin objs none tmax

/-- The same scan in first-hit-threading form (used to relate the list
scan and the BVH traversal; proved equal to `HittableList.hitGo` below). -/
def scanHit (tr : Trig) (hackI : μ → F32 → F32 → V3 → Bool)
    (ray : Ray) (tmin : F32) : List (Hittable μ) → F32 → Option (HitRes μ)
  | [], _ => none
  | o :: os, c =>
    match o.hit tr hackI ray tmin c with
    | some r =>
      match scanHit tr hackI ray tmin os r.t with
      | some r2 => some r2
      | none => some r
    | none => scanHit tr hackI ray tmin os c

/-- Stable ordered insertion (helper of the stable sort modelling Rust's
stable `sort_by`): insert before the first strictly greater element. -/
def insertBy (lt : α → α → Bool) (a : α) : List α → List α
  | [] => [a]
  | b :: bs => if lt a b then a :: b :: bs else b :: insertBy lt a bs

/-- Stable insertion sort; Rust's `sort_by` is a stable sort, and the
output of a stable sort is uniquely determined by the comparator, so this
computes the same list as the source's merge-based sort. -/
def sortBy (lt : α → α → Bool) : List α → List α
  | [] => []
  | a :: as => insertBy lt a (sortBy lt as)

namespace BvhNode

/-- The comparator of `BvhNode::new`: strictly smaller minimum bound on
the chosen axis, under `f32::total_cmp`. -/
def cmpLt (ax : Fin 3) (a b : Hittable μ) : Bool :=
  match F32.totalCmp (a.bounding_box.min.get ax) (b.bounding_box.min.get ax) with
  | .lt => true
  | _ => false

/-- The comparator result `Greater` used by the two-object case. -/
def cmpGt (ax : Fin 3) (a b : Hittable μ) : Bool :=
  match F32.totalCmp (a.bounding_box.min.get ax) (b.bounding_box.min.get ax) with
  | .gt => true
  | _ => false

/-- `BvhNode::new` with explicit recursion fuel (the construction
recurses on halves of a sorted copy, so `fuel = length` suffices; the
fuel only exists to keep the definition computable by the kernel).
`axisAt` supplies the per-node random axis, indexed by the node's path
from the root (`false` = left child, `true` = right child); `dflt` is
returned on the empty input, where the source panics. -/
def newFuel (dflt : Hittable μ) (axisAt : List Bool → Fin 3) :
    ℕ → List Bool → List (Hittable μ) → Hittable μ
  | 0, _, _ => dflt
  | _ + 1, _, [] => dflt
  | _ + 1, _, [o] =>
    .bvhnode o o (AABB.surrounding_box o.bounding_box o.bounding_box)
  | _ + 1, path, [a, b] =>
    let ax := axisAt path
    let p := if cmpGt ax a b then (b, a) else (a, b)
    .bvhnode p.1 p.2 (AABB.surrounding_box p.1.bounding_box p.2.bounding_box)
  | fuel + 1, path, a :: b :: c :: rest =>
    let ax := axisAt path
    let sorted := sortBy (cmpLt ax) (a :: b :: c :: rest)
    let mid := sorted.length / 2
    let l := newFuel dflt axisAt fuel (false :: path) (sorted.take mid)
    let r := newFuel dflt axisAt fuel (true :: path) (sorted.drop mid)
    .bvhnode l r (AABB.surrounding_box l.bounding_box r.bounding_box)

/-- `BvhNode::new(objects)` for a given choice of split axes. -/
def new (dflt : Hittable μ) (axisAt : List Bool → Fin 3)
    (objs : List (Hittable μ)) : Hittable μ :=
  newFuel dflt axisAt objs.length [] objs

end BvhNode

/-- `ray_color` (`main.rs`): depth-bounded recursive radiance estimate.
`emitI` and `scatI` interpret the material's `emitted` and `scatter`
(the latter with its random draws already taken, so it is a function). -/
def ray_color (tr : Trig) (hackI : μ → F32 → F32 → V3 → Bool)
    (emitI : μ → F32 → F32 → V3 → Col)
    (scatI : μ → Ray → HitRes μ → Option (Col × Ray)) :
    Ray → Col → HittableList μ → ℕ → Col
  | _, _, _, 0 => Col.splat (F32.fin 0)
  | ray, background, objs, depth + 1 =>
    match objs.hit tr hackI ray (F32.fin (1 / 1000)) F32.pinf with
    | none => background
    | some hr =>
      let emitted := emitI hr.mat hr.u hr.v hr.position
      match scatI hr.mat ray hr with
      | none => emitted
      | some (attenuation, scattered) =>
        Col.add emitted (Col.mul attenuation
          (ray_color tr hackI emitI scatI scattered background objs depth))

/-- `util.rs` `reflect`: `v - 2 (v . n) n`. -/
def reflect (v normal : V3) : V3 :=
  V3.sub v (V3.smul (F32.mul (F32.fin 2) (V3.dot v normal)) normal)

/-- `util.rs` `unit_vector`: `v / v.length()`. -/
def unit_vector (v : V3) : V3 := V3.divS v v.length

/-- `util.rs` `reflectance`: Schlick's approximation,
`r0 + (1 - r0) (1 - cos)^5` with `r0 = ((1 - ior) / (1 + ior))^2`. -/
def reflectance (cos refIdx : F32) : F32 :=
  let r0 := F32.div (F32.sub (F32.fin 1) refIdx) (F32.add (F32.fin 1) refIdx)
  let r0 := F32.mul r0 r0
  F32.add r0 (F32.mul (F32.sub (F32.fin 1) r0) (F32.pow (F32.sub (F32.fin 1) cos) 5))

/-- `Metal::scatter` (`material.rs`): reflect the unit incoming
direction, perturb by `fuzz * rnd` (`rnd` is the sampled
`random_in_unit_sphere` point), absorb unless the perturbed direction
has positive dot product with the hit normal.  `albedoValue` interprets
`albedo.value`. -/
def Metal.scatter (albedoValue : F32 → F32 → V3 → Col) (fuzz : F32)
    (rnd : V3) (ray : Ray) (hit : HitRes μ) : Option (Col × Ray) :=
  let reflected := reflect (unit_vector ray.direction) hit.normal
  let scattered : Ray := ⟨hit.position, V3.add reflected (V3.smul fuzz rnd)⟩
  if F32.gt (V3.dot scattered.direction hit.normal) (F32.fin 0) then
    some (albedoValue hit.u hit.v hit.position, scattered)
  else none

/-- `to_u32` (`main.rs`): average the accumulated colour over the sample
count, gamma-correct by square root, clamp to the unit interval, scale
by `255.999`, truncate each channel to a byte and pack as `ARGB` with
the alpha byte forced to `0xFF`. -/
def to_u32 (color : V3) (samples_per_pixel : ℕ) : ℕ :=
  let scale := F32.div (F32.fin 1) (F32.fin (samples_per_pixel : ℚ))
  let r := F32.sqrt (F32.mul scale color.x)
  let g := F32.sqrt (F32.mul scale color.y)
  let b := F32.sqrt (F32.mul scale color.z)
  let c255 := F32.fin (255999 / 1000)
  let red := F32.castU8 (F32.mul c255 (F32.clamp r (F32.fin 0) (F32.fin 1)))
  let green := F32.castU8 (F32.mul c255 (F32.clamp g (F32.fin 0) (F32.fin 1)))
  let blue := F32.castU8 (F32.mul c255 (F32.clamp b (F32.fin 0) (F32.fin 1)))
  (0xFF <<< 24) ||| (red <<< 16) ||| (green <<< 8) ||| blue

/-- A decoded RGBA raster for `ImageTexture`: dimensions plus a pixel
accessor returning the four bytes `(r, g, b, a)`. -/
structure RgbaImage where
  width : ℕ
  height : ℕ
  pix : ℕ → ℕ → ℕ × ℕ × ℕ × ℕ

namespace ImageTexture

/-- The texel column index computed by both `ImageTexture::value` and
`ImageTexture::hack_solid`: flip and clamp the coordinate, scale by the
width, cast to `u32`, then clamp to `width - 1`. -/
def idxI (img : RgbaImage) (u : F32) : ℕ :=
  let uu := F32.sub (F32.fin 1) (F32.clamp u (F32.fin 0) (F32.fin 1))
  let i := F32.castU32 (F32.mul (F32.fin (img.width : ℚ)) uu)
  if img.width ≤ i then img.width - 1 else i

/-- The texel row index, analogously from `v` and the height. -/
def idxJ (img : RgbaImage) (v : F32) : ℕ :=
  let vv := F32.sub (F32.fin 1) (F32.clamp v (F32.fin 0) (F32.fin 1))
  let j := F32.castU32 (F32.mul (F32.fin (img.height : ℚ)) vv)
  if img.height ≤ j then img.height - 1 else j

/-- `ImageTexture::hack_solid`: sampled texel's alpha byte exceeds 10. -/
def hack_solid (img : RgbaImage) (u v : F32) (_point : V3) : Bool :=
  let pixel := img.pix (idxI img u) (idxJ img v)
  decide (10 < pixel.2.2.2)

/-- `ImageTexture::value`: the sampled texel scaled by `1 / 255`. -/
def value (img : RgbaImage) (u v : F32) (_point : V3) : Col :=
  let scale := F32.div (F32.fin 1) (F32.fin 255)
  let pixel := img.pix (idxI img u) (idxJ img v)
  ⟨F32.mul (F32.fin (pixel.1 : ℚ)) scale,
   F32.mul (F32.fin (pixel.2.1 : ℚ)) scale,
   F32.mul (F32.fin (pixel.2.2.1 : ℚ)) scale,
   F32.mul (F32.fin (pixel.2.2.2 : ℚ)) scale⟩

end ImageTexture

namespace F32

theorem le_fin_fin {a b : ℚ} : le (fin a) (fin b) = decide (a ≤ b) := rfl

theorem lt_fin_fin {a b : ℚ} : lt (fin a) (fin b) = decide (a < b) := rfl

theorem ne_nan_of_le {a b : F32} (h : le a b = true) : a ≠ nan ∧ b ≠ nan := by
  cases a <;> cases b <;> simp_all [le]

theorem ne_nan_of_lt {a b : F32} (h : lt a b = true) : a ≠ nan ∧ b ≠ nan := by
  cases a <;> cases b <;> simp_all [lt]

theorem le_refl {a : F32} (h : a ≠ nan) : le a a = true := by
  cases a <;> simp_all [le]

theorem le_trans {a b c : F32} (h1 : le a b = true) (h2 : le b c = true) :
    le a c = true := by
  cases a <;> cases b <;> cases c <;> simp_all [le] <;> linarith

theorem le_of_lt {a b : F32} (h : lt a b = true) : le a b = true := by
  cases a <;> cases b <;> simp_all [lt, le] <;> linarith

theorem lt_of_le_of_lt {a b c : F32} (h1 : le a b = true) (h2 : lt b c = true) :
    lt a c = true := by
  cases a <;> cases b <;> cases c <;> simp_all [le, lt] <;> linarith

theorem lt_of_lt_of_le {a b c : F32} (h1 : lt a b = true) (h2 : le b c = true) :
    lt a c = true := by
  cases a <;> cases b <;> cases c <;> simp_all [le, lt] <;> linarith

theorem lt_irrefl {a : F32} : lt a a = false := by
  cases a <;> simp [lt]

theorem not_lt_of_le {a b : F32} (h : le a b = true) : lt b a = false := by
  cases a <;> cases b <;> simp_all [le, lt] <;> linarith

theorem le_of_not_lt {a b : F32} (ha : a ≠ nan) (hb : b ≠ nan)
    (h : lt a b = false) : le b a = true := by
  cases a <;> cases b <;> simp_all [le, lt] <;> linarith

theorem lt_or_lt_of_ne {a b : F32} (ha : a ≠ nan) (hb : b ≠ nan) (hne : a ≠ b) :
    lt a b = true ∨ lt b a = true := by
  cases a <;> cases b <;> simp_all [lt]

theorem le_pinf {a : F32} (h : a ≠ nan) : le a pinf = true := by
  cases a <;> simp_all [le]

theorem min_le_left {a b : F32} (ha : a ≠ nan) (hb : b ≠ nan) :
    le (min a b) a = true := by
  unfold min
  rw [if_neg ha, if_neg hb]
  split
  · exact le_of_lt (by assumption)
  · exact le_refl ha

theorem min_le_right {a b : F32} (ha : a ≠ nan) (hb : b ≠ nan) :
    le (min a b) b = true := by
  unfold min
  rw [if_neg ha, if_neg hb]
  split
  · exact le_refl hb
  · exact le_of_not_lt hb ha (by simp_all)

theorem le_max_left {a b : F32} (ha : a ≠ nan) (hb : b ≠ nan) :
    le a (max a b) = true := by
  unfold max
  rw [if_neg ha, if_neg hb]
  split
  · exact le_of_lt (by assumption)
  · exact le_refl ha

theorem le_max_right {a b : F32} (ha : a ≠ nan) (hb : b ≠ nan) :
    le b (max a b) = true := by
  unfold max
  rw [if_neg ha, if_neg hb]
  split
  · exact le_refl hb
  · exact le_of_not_lt ha hb (by simp_all)

theorem le_min_of_le {x a b : F32} (h1 : le x a = true) (h2 : le x b = true) :
    le x (min a b) = true := by
  have ha := (ne_nan_of_le h1).2
  have hb := (ne_nan_of_le h2).2
  unfold min
  rw [if_neg ha, if_neg hb]
  split
  · exact h2
  · exact h1

theorem max_le_of_le {a b x : F32} (h1 : le a x = true) (h2 : le b x = true) :
    le (max a b) x = true := by
  have ha := (ne_nan_of_le h1).1
  have hb := (ne_nan_of_le h2).1
  unfold max
  rw [if_neg ha, if_neg hb]
  split
  · exact h2
  · exact h1

/-- The nonnegativity of the idealized square root (the only fact any
theorem uses about its numeric value). -/
theorem sqrtQ_nonneg (q : ℚ) : 0 ≤ sqrtQ q := by
  unfold sqrtQ
  positivity

end F32

namespace F32

theorem neg_fin {a : ℚ} : neg (fin a) = fin (-a) := rfl

theorem add_fin_fin {a b : ℚ} : add (fin a) (fin b) = fin (a + b) := rfl

theorem sub_fin_fin {a b : ℚ} : sub (fin a) (fin b) = fin (a - b) := by
  simp [sub, add, neg, sub_eq_add_neg]

theorem mul_fin_fin {a b : ℚ} : mul (fin a) (fin b) = fin (a * b) := rfl

theorem div_fin_fin {a b : ℚ} (h : b ≠ 0) : div (fin a) (fin b) = fin (a / b) := by
  simp [div, h]

theorem max_fin_fin {a b : ℚ} :
    max (fin a) (fin b) = if a < b then fin b else fin a := by
  by_cases h : a < b <;> simp [max, lt, h]

theorem min_fin_fin {a b : ℚ} :
    min (fin a) (fin b) = if b < a then fin b else fin a := by
  by_cases h : b < a <;> simp [min, lt, h]

theorem totalCmp_fin_fin {a b : ℚ} : totalCmp (fin a) (fin b) = compare a b := rfl

end F32

/-- A trivial interpretation of the trig functions (they only influence
texture coordinates). -/
def trig0 : Trig := ⟨fun _ => F32.fin 0, fun _ _ => F32.fin 0, F32.fin 0⟩

/-- The always-solid material interpretation (e.g. `Lambertian` over a
`SolidColor`, whose `hack_solid` is constantly true). -/
def hackTrue : ℕ → F32 → F32 → V3 → Bool := fun _ _ _ _ => true

/-- Concrete axis rectangle: the unit square at `y = 0` (material tag 0). -/
def rectA : Hittable ℕ :=
  .xzRect (F32.fin 0) (F32.fin 1) (F32.fin 0) (F32.fin 1) (F32.fin 0) 0

/-- Concrete axis rectangle at `y = -5` (material tag 1). -/
def rectB : Hittable ℕ :=
  .xzRect (F32.fin (1 / 2)) (F32.fin 5) (F32.fin 0) (F32.fin 6) (F32.fin (-5)) 1

/-- Concrete far-away axis rectangle the test ray misses (material tag 2). -/
def rectC : Hittable ℕ :=
  .xzRect (F32.fin 10) (F32.fin 11) (F32.fin 10) (F32.fin 11) (F32.fin 0) 2

/-- The test ray: origin `(-1, 1, 0)`, direction `(1, -1, 1)`.  It hits
`rectA` exactly at the corner `(0, 0, 1)` at `t = 1`, entering the x-slab
of `rectA`'s bounding box at the very parameter at which it leaves the
z-slab, so the slab test rejects the box while the rectangle is hit. -/
def rayCE : Ray :=
  ⟨⟨F32.fin (-1), F32.fin 1, F32.fin 0⟩, ⟨F32.fin 1, F32.fin (-1), F32.fin 1⟩⟩

/-- A fixed choice of split axes: always axis 0 (x). -/
def axis0 : List Bool → Fin 3 := fun _ => 0

/-- Componentwise box containment: `outer` contains `inner`. -/
def AABB.contains (outer inner : AABB) : Bool :=
  F32.le outer.min.x inner.min.x && F32.le outer.min.y inner.min.y &&
  F32.le outer.min.z inner.min.z && F32.le inner.max.x outer.max.x &&
  F32.le inner.max.y outer.max.y && F32.le inner.max.z outer.max.z

/-- A box whose minimum is componentwise at most its maximum. -/
def AABB.proper (b : AABB) : Bool :=
  F32.le b.min.x b.max.x && F32.le b.min.y b.max.y && F32.le b.min.z b.max.z

/-- C2.  `ray_color` satisfies exactly the recurrence of the claim: depth
0 yields pure black; otherwise the scene is intersected over the interval
`(0.001, +inf)`; a miss yields the background colour; a hit whose
material does not scatter yields exactly the emitted term; otherwise the
result is `emitted + attenuation * ray_color(scattered, depth - 1)` with
a componentwise product. -/
theorem ray_color_recurrence {μ : Type} (tr : Trig)
    (hackI : μ → F32 → F32 → V3 → Bool) (emitI : μ → F32 → F32 → V3 → Col)
    (scatI : μ → Ray → HitRes μ → Option (Col × Ray))
    (ray : Ray) (background : Col) (objs : HittableList μ) :
    ray_color tr hackI emitI scatI ray background objs 0 = Col.splat (F32.fin 0) ∧
    ∀ depth : ℕ,
      ray_color tr hackI emitI scatI ray background objs (depth + 1) =
        match objs.hit tr hackI ray (F32.fin (1 / 1000)) F32.pinf with
        | none => background
        | some hr =>
          match scatI hr.mat ray hr with
          | none => emitI hr.mat hr.u hr.v hr.position
          | some (attenuation, scattered) =>
            Col.add (emitI hr.mat hr.u hr.v hr.position)
              (Col.mul attenuation
                (ray_color tr hackI emitI scatI scattered background objs depth)) := by
  refine ⟨rfl, fun depth => ?_⟩
  rfl

/-- C3, counterexample.  On an empty scene `ray_color` returns the
background colour, not black: with background `(1,1,1,1)` and depth 1 the
result is `(1,1,1,1)`. -/
theorem ray_color_empty_not_black : ray_color trig0 hackTrue
    (fun _ _ _ _ => Col.splat (F32.fin 0)) (fun _ _ _ => none)
    rayCE (Col.splat (F32.fin 1)) ([] : HittableList ℕ) 1 ≠
    Col.splat (F32.fin 0) := by
  norm_num [ray_color, HittableList.hit, HittableList.hitGo, Col.splat]

/-- C3, amended.  For a scene whose top-level list contains zero objects,
`ray_color` returns black at depth 0 and the background colour at every
positive depth; the rendered image is therefore the tone-mapped
background, and is black exactly when the background is black. -/
theorem ray_color_empty {μ : Type} (tr : Trig)
    (hackI : μ → F32 → F32 → V3 → Bool) (emitI : μ → F32 → F32 → V3 → Col)
    (scatI : μ → Ray → HitRes μ → Option (Col × Ray))
    (ray : Ray) (background : Col) (depth : ℕ) :
    ray_color tr hackI emitI scatI ray background ([] : HittableList μ) depth =
      if depth = 0 then Col.splat (F32.fin 0) else background := by
  cases depth with
  | zero => rfl
  | succ d => simp [ray_color, HittableList.hit, HittableList.hitGo]

/-- C6.  For proper boxes (componentwise `min ≤ max`),
`AABB::surrounding_box` contains both inputs, and is the smallest box
doing so: any box containing both inputs contains it. -/
theorem surrounding_box_spec (a b : AABB)
    (ha : a.proper = true) (hb : b.proper = true) :
    AABB.contains (AABB.surrounding_box a b) a = true ∧
    AABB.contains (AABB.surrounding_box a b) b = true ∧
    ∀ g : AABB, AABB.contains g a = true → AABB.contains g b = true →
      AABB.contains g (AABB.surrounding_box a b) = true := by
  simp only [AABB.proper, Bool.and_eq_true] at ha hb
  obtain ⟨⟨hax, hay⟩, haz⟩ := ha
  obtain ⟨⟨hbx, hby⟩, hbz⟩ := hb
  have nax1 := (F32.ne_nan_of_le hax).1
  have nax2 := (F32.ne_nan_of_le hax).2
  have nay1 := (F32.ne_nan_of_le hay).1
  have nay2 := (F32.ne_nan_of_le hay).2
  have naz1 := (F32.ne_nan_of_le haz).1
  have naz2 := (F32.ne_nan_of_le haz).2
  have nbx1 := (F32.ne_nan_of_le hbx).1
  have nbx2 := (F32.ne_nan_of_le hbx).2
  have nby1 := (F32.ne_nan_of_le hby).1
  have nby2 := (F32.ne_nan_of_le hby).2
  have nbz1 := (F32.ne_nan_of_le hbz).1
  have nbz2 := (F32.ne_nan_of_le hbz).2
  refine ⟨?_, ?_, ?_⟩
  · simp only [AABB.contains, AABB.surrounding_box, V3.vmin, V3.vmax, Bool.and_eq_true]
    exact ⟨⟨⟨⟨⟨F32.min_le_left nax1 nbx1, F32.min_le_left nay1 nby1⟩,
      F32.min_le_left naz1 nbz1⟩, F32.le_max_left nax2 nbx2⟩,
      F32.le_max_left nay2 nby2⟩, F32.le_max_left naz2 nbz2⟩
  · simp only [AABB.contains, AABB.surrounding_box, V3.vmin, V3.vmax, Bool.and_eq_true]
    exact ⟨⟨⟨⟨⟨F32.min_le_right nax1 nbx1, F32.min_le_right nay1 nby1⟩,
      F32.min_le_right naz1 nbz1⟩, F32.le_max_right nax2 nbx2⟩,
      F32.le_max_right nay2 nby2⟩, F32.le_max_right naz2 nbz2⟩
  · intro g hga hgb
    simp only [AABB.contains, Bool.and_eq_true] at hga hgb
    obtain ⟨⟨⟨⟨⟨g1a, g2a⟩, g3a⟩, g4a⟩, g5a⟩, g6a⟩ := hga
    obtain ⟨⟨⟨⟨⟨g1b, g2b⟩, g3b⟩, g4b⟩, g5b⟩, g6b⟩ := hgb
    simp only [AABB.contains, AABB.surrounding_box, V3.vmin, V3.vmax, Bool.and_eq_true]
    exact ⟨⟨⟨⟨⟨F32.le_min_of_le g1a g1b, F32.le_min_of_le g2a g2b⟩,
      F32.le_min_of_le g3a g3b⟩, F32.max_le_of_le g4a g4b⟩,
      F32.max_le_of_le g5a g5b⟩, F32.max_le_of_le g6a g6b⟩

/-- Concrete box for the C6 witness. -/
def boxW1 : AABB := ⟨⟨F32.fin 0, F32.fin 0, F32.fin 0⟩, ⟨F32.fin 1, F32.fin 1, F32.fin 1⟩⟩

/-- Concrete box for the C6 witness. -/
def boxW2 : AABB :=
  ⟨⟨F32.fin (-1), F32.fin 0, F32.fin 0⟩, ⟨F32.fin 2, F32.fin 1, F32.fin 1⟩⟩

/-- C6 witness: the theorem applied to two concrete proper boxes. -/
theorem surrounding_box_spec_witness :
    boxW1.proper = true ∧ boxW2.proper = true ∧
    AABB.contains (AABB.surrounding_box boxW1 boxW2) boxW1 = true := by
  have h1 : boxW1.proper = true := by
    norm_num [AABB.proper, boxW1, F32.le]
  have h2 : boxW2.proper = true := by
    norm_num [AABB.proper, boxW2, F32.le]
  exact ⟨h1, h2, (surrounding_box_spec boxW1 boxW2 h1 h2).1⟩

/-- C9, counterexample.  At `ior = -1` the base term `r0` divides by
zero: `r0 = (2 / 0)^2 = +inf`, and the correction term becomes
`(1 - inf) * 0 = NaN`, so `reflectance(1, -1)` is NaN and in particular
not equal to `r0` — the claim fails for this index of refraction. -/
theorem reflectance_neg_one_ne_r0 :
    reflectance (F32.fin 1) (F32.fin (-1)) ≠
      F32.mul (F32.div (F32.sub (F32.fin 1) (F32.fin (-1)))
          (F32.add (F32.fin 1) (F32.fin (-1))))
        (F32.div (F32.sub (F32.fin 1) (F32.fin (-1)))
          (F32.add (F32.fin 1) (F32.fin (-1)))) := by
  norm_num [reflectance, F32.pow, F32.div, F32.mul, F32.add, F32.sub, F32.neg]
  decide

/-- C9, amended.  At normal incidence (`cos = 1`) and for every finite
index of refraction other than `-1` (where `1 + ior` is zero),
`reflectance(1, ior)` equals exactly `r0 = ((1 - ior) / (1 + ior))^2`:
the `(1 - cos)^5` correction term is exactly zero. -/
theorem reflectance_normal_incidence (q : ℚ) (h : q ≠ -1) :
    reflectance (F32.fin 1) (F32.fin q) =
      F32.mul (F32.div (F32.sub (F32.fin 1) (F32.fin q))
          (F32.add (F32.fin 1) (F32.fin q)))
        (F32.div (F32.sub (F32.fin 1) (F32.fin q))
          (F32.add (F32.fin 1) (F32.fin q))) := by
  have hq : (1 : ℚ) + q ≠ 0 := fun h0 => h (by linarith)
  simp only [reflectance, F32.pow, F32.add_fin_fin, F32.sub_fin_fin, F32.mul_fin_fin,
    F32.div_fin_fin hq]
  norm_num

/-- C9 witness: the amended theorem at the concrete index `3 / 2`. -/
theorem reflectance_normal_incidence_witness :
    (3 / 2 : ℚ) ≠ -1 ∧
    reflectance (F32.fin 1) (F32.fin (3 / 2)) =
      F32.mul (F32.div (F32.sub (F32.fin 1) (F32.fin (3 / 2)))
          (F32.add (F32.fin 1) (F32.fin (3 / 2))))
        (F32.div (F32.sub (F32.fin 1) (F32.fin (3 / 2)))
          (F32.add (F32.fin 1) (F32.fin (3 / 2)))) :=
  ⟨by norm_num, reflectance_normal_incidence (3 / 2) (by norm_num)⟩

/-- The fuzz-perturbed reflected direction `Metal::scatter` builds:
`reflect(unit(dir), normal) + fuzz * rnd`. -/
def metalDir (fuzz : F32) (rnd : V3) (ray : Ray) (normal : V3) : V3 :=
  V3.add (reflect (unit_vector ray.direction) normal) (V3.smul fuzz rnd)

/-- C7, counterexample.  For a ray with zero direction vector the
normalized direction is `0/0 = NaN` componentwise, the perturbed
reflected direction and its dot product with the normal are NaN, and
`Metal::scatter` absorbs — but `NaN ≤ 0` is false, so "absorbs exactly
when the dot product is ≤ 0" fails. -/
theorem metal_scatter_nan_counterexample :
    Metal.scatter (fun _ _ _ => Col.splat (F32.fin 1)) (F32.fin 0)
        (V3.splat (F32.fin 0)) ⟨V3.splat (F32.fin 0), V3.splat (F32.fin 0)⟩
        (⟨V3.splat (F32.fin 0), ⟨F32.fin 0, F32.fin 1, F32.fin 0⟩, F32.fin 1,
          true, (0 : ℕ), F32.fin 0, F32.fin 0⟩ : HitRes ℕ) = none ∧
    F32.le (V3.dot (metalDir (F32.fin 0) (V3.splat (F32.fin 0))
        ⟨V3.splat (F32.fin 0), V3.splat (F32.fin 0)⟩ ⟨F32.fin 0, F32.fin 1, F32.fin 0⟩)
        ⟨F32.fin 0, F32.fin 1, F32.fin 0⟩) (F32.fin 0) = false := by
  constructor
  · norm_num [Metal.scatter, reflect, unit_vector, metalDir, V3.splat, V3.dot, V3.add,
      V3.sub, V3.smul, V3.divS, V3.length, V3.lengthSq, F32.sqrt, F32.sqrtQ,
      F32.gt, F32.lt, F32.mul, F32.add, F32.sub, F32.div, F32.neg]
  · norm_num [metalDir, reflect, unit_vector, V3.splat, V3.dot, V3.add,
      V3.sub, V3.smul, V3.divS, V3.length, V3.lengthSq, F32.sqrt, F32.sqrtQ,
      F32.le, F32.mul, F32.add, F32.sub, F32.div, F32.neg]

/-- C7, amended.  `Metal::scatter` returns nothing exactly when the
fuzz-perturbed reflected direction does *not* have strictly positive dot
product with the hit normal (that is, the dot product is ≤ 0 or NaN);
when the dot product is positive it returns the albedo texture's value
at the hit together with the ray from the hit position along the
perturbed direction. -/
theorem metal_scatter_spec {μ : Type} (albedoValue : F32 → F32 → V3 → Col)
    (fuzz : F32) (rnd : V3) (ray : Ray) (hit : HitRes μ) :
    (Metal.scatter albedoValue fuzz rnd ray hit = none ↔
      ¬ F32.gt (V3.dot (metalDir fuzz rnd ray hit.normal) hit.normal)
          (F32.fin 0) = true) ∧
    (F32.gt (V3.dot (metalDir fuzz rnd ray hit.normal) hit.normal)
          (F32.fin 0) = true →
      Metal.scatter albedoValue fuzz rnd ray hit =
        some (albedoValue hit.u hit.v hit.position,
          ⟨hit.position, metalDir fuzz rnd ray hit.normal⟩)) := by
  simp only [Metal.scatter, metalDir]
  constructor
  · split <;> simp_all
  · intro h
    simp [h]

/-- C7 witness: a concrete metal scatter with positive dot product; the
amended theorem's second part produces the scattered ray. -/
theorem metal_scatter_spec_witness :
    F32.gt (V3.dot (metalDir (F32.fin 0) (V3.splat (F32.fin 0))
        ⟨V3.splat (F32.fin 0), ⟨F32.fin 0, F32.fin (-1), F32.fin 0⟩⟩
        ⟨F32.fin 0, F32.fin 1, F32.fin 0⟩) ⟨F32.fin 0, F32.fin 1, F32.fin 0⟩)
      (F32.fin 0) = true ∧
    Metal.scatter (fun _ _ _ => Col.splat (F32.fin 1)) (F32.fin 0)
        (V3.splat (F32.fin 0)) ⟨V3.splat (F32.fin 0), ⟨F32.fin 0, F32.fin (-1), F32.fin 0⟩⟩
        (⟨V3.splat (F32.fin 0), ⟨F32.fin 0, F32.fin 1, F32.fin 0⟩, F32.fin 1,
          true, (0 : ℕ), F32.fin 0, F32.fin 0⟩ : HitRes ℕ) =
      some (Col.splat (F32.fin 1),
        ⟨V3.splat (F32.fin 0),
          metalDir (F32.fin 0) (V3.splat (F32.fin 0))
            ⟨V3.splat (F32.fin 0), ⟨F32.fin 0, F32.fin (-1), F32.fin 0⟩⟩
            ⟨F32.fin 0, F32.fin 1, F32.fin 0⟩⟩) := by
  have hgt : F32.gt (V3.dot (metalDir (F32.fin 0) (V3.splat (F32.fin 0))
      ⟨V3.splat (F32.fin 0), ⟨F32.fin 0, F32.fin (-1), F32.fin 0⟩⟩
      ⟨F32.fin 0, F32.fin 1, F32.fin 0⟩) ⟨F32.fin 0, F32.fin 1, F32.fin 0⟩)
      (F32.fin 0) = true := by
    norm_num [metalDir, reflect, unit_vector, V3.splat, V3.dot, V3.add,
      V3.sub, V3.smul, V3.divS, V3.length, V3.lengthSq, F32.sqrt, F32.sqrtQ,
      F32.gt, F32.lt, F32.mul, F32.add, F32.sub, F32.div, F32.neg, F32.sqrtQ,
      Nat.sqrt]
  exact ⟨hgt, (metal_scatter_spec (fun _ _ _ => Col.splat (F32.fin 1)) (F32.fin 0)
    (V3.splat (F32.fin 0)) ⟨V3.splat (F32.fin 0), ⟨F32.fin 0, F32.fin (-1), F32.fin 0⟩⟩
    (⟨V3.splat (F32.fin 0), ⟨F32.fin 0, F32.fin 1, F32.fin 0⟩, F32.fin 1,
      true, (0 : ℕ), F32.fin 0, F32.fin 0⟩ : HitRes ℕ)).2 hgt⟩

/-- C10.  For every image of positive width and height and all texture
coordinates — including values outside the unit interval and NaN — the
texel indices used by `ImageTexture::value` and
`ImageTexture::hack_solid` are within bounds (`i < width`, `j <
height`), so the pixel lookup never goes out of range; and `hack_solid`
is true exactly when the sampled texel's alpha byte exceeds 10. -/
theorem imageTexture_in_bounds (img : RgbaImage) (u v : F32) (p : V3)
    (hw : 1 ≤ img.width) (hh : 1 ≤ img.height) :
    ImageTexture.idxI img u < img.width ∧
    ImageTexture.idxJ img v < img.height ∧
    (ImageTexture.hack_solid img u v p = true ↔
      10 < (img.pix (ImageTexture.idxI img u) (ImageTexture.idxJ img v)).2.2.2) := by
  refine ⟨?_, ?_, ?_⟩
  · simp only [ImageTexture.idxI]
    split <;> omega
  · simp only [ImageTexture.idxJ]
    split <;> omega
  · simp [ImageTexture.hack_solid]

/-- The concrete one-pixel image of the C10 witness. -/
def imgW : RgbaImage := ⟨1, 1, fun _ _ => (1, 2, 3, 200)⟩

/-- C10 witness: the theorem applied to a concrete 1x1 image with NaN
texture coordinates. -/
theorem imageTexture_in_bounds_witness :
    1 ≤ imgW.width ∧
    ImageTexture.idxI imgW F32.nan < imgW.width ∧
    ImageTexture.hack_solid imgW F32.nan F32.nan (V3.splat (F32.fin 0)) = true := by
  have h := imageTexture_in_bounds imgW F32.nan F32.nan (V3.splat (F32.fin 0))
    (by norm_num [imgW]) (by norm_num [imgW])
  exact ⟨by norm_num [imgW], h.1, h.2.2.mpr (by norm_num [imgW])⟩

/-- Bitwise-or of values with disjoint bit ranges is addition: if `2^n`
divides `x` and `a < 2^n` then `x ||| a = x + a`. -/
theorem lor_eq_add_of_dvd (n x a : ℕ) (hd : 2 ^ n ∣ x) (ha : a < 2 ^ n) :
    x ||| a = x + a := by
  apply Nat.eq_of_testBit_eq
  intro i
  rw [Nat.testBit_lor]
  obtain ⟨k, rfl⟩ := hd
  rcases Nat.lt_or_ge i n with hi | hi
  · have hni : i + (n - i) = n := by omega
    have hsplit : 2 ^ n * k = 2 ^ i * (2 ^ (n - i) * k) := by
      rw [← mul_assoc, ← pow_add, hni]
    have hsucc : n - i - 1 + 1 = n - i := by omega
    have hstep : 2 ^ (n - i) * k = 2 * (2 ^ (n - i - 1) * k) := by
      rw [← mul_assoc, ← pow_succ', hsucc]
    have hxb : (2 ^ n * k).testBit i = false := by
      rw [Nat.testBit_to_div_mod, hsplit,
        Nat.mul_div_cancel_left _ (Nat.pos_pow_of_pos i (by norm_num)), hstep]
      simp [Nat.mul_mod_right]
    rw [hxb]
    simp only [Bool.false_or]
    rw [Nat.testBit_to_div_mod, Nat.testBit_to_div_mod]
    have hdiv : (2 ^ n * k + a) / 2 ^ i = 2 ^ (n - i) * k + a / 2 ^ i := by
      rw [hsplit, Nat.mul_add_div (Nat.pos_pow_of_pos i (by norm_num))]
    rw [hdiv, hstep]
    have hmod : (2 * (2 ^ (n - i - 1) * k) + a / 2 ^ i) % 2 = a / 2 ^ i % 2 := by
      omega
    rw [hmod]
  · have hab : a.testBit i = false :=
      Nat.testBit_lt_two_pow
        (lt_of_lt_of_le ha (Nat.pow_le_pow_right (by norm_num) hi))
    rw [hab]
    simp only [Bool.or_false]
    rw [Nat.testBit_to_div_mod, Nat.testBit_to_div_mod]
    have hin : n + (i - n) = i := by omega
    have hbase : (2 ^ n * k + a) / 2 ^ n = k := by
      rw [Nat.mul_add_div (Nat.pos_pow_of_pos n (by norm_num)),
        Nat.div_eq_of_lt ha, Nat.add_zero]
    have hs1 : (2 ^ n * k + a) / 2 ^ i = (2 ^ n * k + a) / 2 ^ n / 2 ^ (i - n) := by
      rw [Nat.div_div_eq_div_mul, ← pow_add, hin]
    have hs2 : 2 ^ n * k / 2 ^ i = 2 ^ n * k / 2 ^ n / 2 ^ (i - n) := by
      rw [Nat.div_div_eq_div_mul, ← pow_add, hin]
    rw [hs1, hs2, hbase,
      Nat.mul_div_cancel_left _ (Nat.pos_pow_of_pos n (by norm_num))]

/-- `as u8` saturates into a byte. -/
theorem castU8_lt_256 (x : F32) : F32.castU8 x < 256 := by
  cases x <;> simp [F32.castU8]
  split <;> omega

/-- One tone-mapped channel of `to_u32`: byte truncation of `255.999`
times the unit-clamped square root of the per-sample average. -/
def toneChannel (spp : ℕ) (c : F32) : ℕ :=
  F32.castU8 (F32.mul (F32.fin (255999 / 1000))
    (F32.clamp (F32.sqrt (F32.mul (F32.div (F32.fin 1) (F32.fin (spp : ℚ))) c))
      (F32.fin 0) (F32.fin 1)))

/-- C8.  For at least one sample per pixel, the packed pixel of `to_u32`
is `0xFF` in the alpha byte (bits 24-31) with the red, green and blue
channels in the low 24 bits, each channel being the truncation of
`255.999` times the unit-clamped square root of the per-sample-averaged
channel value. -/
theorem to_u32_spec (color : V3) (spp : ℕ) (h : 1 ≤ spp) :
    to_u32 color spp =
      255 * 2 ^ 24 + toneChannel spp color.x * 2 ^ 16 +
        toneChannel spp color.y * 2 ^ 8 + toneChannel spp color.z ∧
    to_u32 color spp / 2 ^ 24 = 255 ∧
    to_u32 color spp / 2 ^ 16 % 2 ^ 8 = toneChannel spp color.x ∧
    to_u32 color spp / 2 ^ 8 % 2 ^ 8 = toneChannel spp color.y ∧
    to_u32 color spp % 2 ^ 8 = toneChannel spp color.z := by
  have hr : toneChannel spp color.x < 256 := castU8_lt_256 _
  have hg : toneChannel spp color.y < 256 := castU8_lt_256 _
  have hb : toneChannel spp color.z < 256 := castU8_lt_256 _
  have key : to_u32 color spp =
      255 * 2 ^ 24 + toneChannel spp color.x * 2 ^ 16 +
        toneChannel spp color.y * 2 ^ 8 + toneChannel spp color.z := by
    show (0xFF <<< 24) ||| (toneChannel spp color.x <<< 16) |||
        (toneChannel spp color.y <<< 8) ||| toneChannel spp color.z = _
    have e1 : (0xFF <<< 24) ||| (toneChannel spp color.x <<< 16) =
        255 * 2 ^ 24 + toneChannel spp color.x * 2 ^ 16 := by
      rw [Nat.shiftLeft_eq, Nat.shiftLeft_eq]
      exact lor_eq_add_of_dvd 24 _ _ (dvd_mul_left _ _) (by omega)
    have e2 : (0xFF <<< 24) ||| (toneChannel spp color.x <<< 16) |||
        (toneChannel spp color.y <<< 8) =
        255 * 2 ^ 24 + toneChannel spp color.x * 2 ^ 16 +
          toneChannel spp color.y * 2 ^ 8 := by
      rw [e1, Nat.shiftLeft_eq]
      exact lor_eq_add_of_dvd 16 _ _
        (dvd_add ⟨255 * 2 ^ 8, by norm_num⟩ (dvd_mul_left _ _)) (by omega)
    rw [e2]
    exact lor_eq_add_of_dvd 8 _ _
      (dvd_add (dvd_add ⟨255 * 2 ^ 16, by norm_num⟩
        ⟨toneChannel spp color.x * 2 ^ 8, by ring⟩) (dvd_mul_left _ _))
      (by omega)
  refine ⟨key, ?_, ?_, ?_, ?_⟩ <;> rw [key] <;> norm_num <;> omega

/-- C8 witness: the theorem at a concrete colour and sample count. -/
theorem to_u32_spec_witness :
    1 ≤ 1 ∧ to_u32 (V3.splat (F32.fin 0)) 1 / 2 ^ 24 = 255 :=
  ⟨Nat.le_refl 1, (to_u32_spec (V3.splat (F32.fin 0)) 1 (Nat.le_refl 1)).2.1⟩

/-- A ray with finite origin and direction and nonzero direction
(positive squared length). -/
def goodRay (ray : Ray) : Bool :=
  ray.origin.allFin && ray.direction.allFin &&
    F32.lt (F32.fin 0) (V3.lengthSq ray.direction)

/-- Well-formed scene parameters: finite sphere/rectangle/translation
data, and rotation wrappers whose stored `sin θ`, `cos θ` satisfy the
Pythagorean identity (as the source's `θ.sin()`, `θ.cos()` do). -/
def Hittable.wf : Hittable μ → Bool
  | .sphere c r _ => c.allFin && r.isFin
  | .xyRect x0 x1 y0 y1 z _ =>
    x0.isFin && x1.isFin && y0.isFin && y1.isFin && z.isFin
  | .xzRect x0 x1 z0 z1 y _ =>
    x0.isFin && x1.isFin && z0.isFin && z1.isFin && y.isFin
  | .yzRect y0 y1 z0 z1 x _ =>
    y0.isFin && y1.isFin && z0.isFin && z1.isFin && x.isFin
  | .bvhnode l r _ => l.wf && r.wf
  | .rotate _ inner _ sinT cosT =>
    decide (F32.add (F32.mul sinT sinT) (F32.mul cosT cosT) = F32.fin 1) && inner.wf
  | .translate inner offset _ => offset.allFin && inner.wf

/-- No rectangle of the object lies exactly in the plane swept by the
(suitably transformed) ray: excludes the `0 / 0` parameter.  The ray is
transformed along `Rotate`/`Translate` exactly as `hit` transforms it. -/
def Hittable.noDegen (ray : Ray) : Hittable μ → Bool
  | .sphere _ _ _ => true
  | .xyRect _ _ _ _ z _ =>
    !(decide (ray.direction.z = F32.fin 0) && decide (ray.origin.z = z))
  | .xzRect _ _ _ _ y _ =>
    !(decide (ray.direction.y = F32.fin 0) && decide (ray.origin.y = y))
  | .yzRect _ _ _ _ x _ =>
    !(decide (ray.direction.x = F32.fin 0) && decide (ray.origin.x = x))
  | .bvhnode l r _ => l.noDegen ray && r.noDegen ray
  | .rotate ax inner _ sinT cosT =>
    inner.noDegen ⟨rotAxis ax ray.origin (F32.neg sinT) cosT,
      rotAxis ax ray.direction (F32.neg sinT) cosT⟩
  | .translate inner offset _ =>
    inner.noDegen ⟨V3.sub ray.origin offset, ray.direction⟩

/-- Stored rotation coefficients summing to one are finite rationals. -/
theorem sincos_fin {s c : F32}
    (h : F32.add (F32.mul s s) (F32.mul c c) = F32.fin 1) :
    ∃ qs qc : ℚ, s = F32.fin qs ∧ c = F32.fin qc ∧ qs * qs + qc * qc = 1 := by
  cases s <;> cases c <;> simp_all [F32.mul, F32.add]

/-- Rotation about an axis preserves the squared length when the stored
coefficients satisfy the Pythagorean identity. -/
theorem rot_lengthSq {ax : RAxis} {vx vy vz qs qc : ℚ}
    (h : qs * qs + qc * qc = 1) :
    V3.lengthSq (rotAxis ax ⟨F32.fin vx, F32.fin vy, F32.fin vz⟩
        (F32.fin qs) (F32.fin qc)) =
      V3.lengthSq ⟨F32.fin vx, F32.fin vy, F32.fin vz⟩ := by
  cases ax
  · simp only [rotAxis, V3.lengthSq, V3.dot, F32.mul_fin_fin, F32.add_fin_fin,
      F32.sub_fin_fin, F32.fin.injEq]
    linear_combination (vy * vy + vz * vz) * h
  · simp only [rotAxis, V3.lengthSq, V3.dot, F32.mul_fin_fin, F32.add_fin_fin,
      F32.sub_fin_fin, F32.neg_fin, F32.fin.injEq]
    linear_combination (vx * vx + vz * vz) * h
  · simp only [rotAxis, V3.lengthSq, V3.dot, F32.mul_fin_fin, F32.add_fin_fin,
      F32.sub_fin_fin, F32.fin.injEq]
    linear_combination (vx * vx + vy * vy) * h

theorem isFin_exists {x : F32} (h : x.isFin = true) : ∃ q : ℚ, x = F32.fin q := by
  cases x <;> simp_all [F32.isFin]

/-- An accepted parameter (`t < t_min` and `t > t_max` both false) lies
in the closed interval. -/
theorem le_of_accept {t tmin tmax : F32} (ht : t ≠ F32.nan)
    (htmin : tmin.isFin = true) (htmax : tmax ≠ F32.nan)
    (h1 : F32.lt t tmin = false) (h2 : F32.gt t tmax = false) :
    F32.le tmin t = true ∧ F32.le t tmax = true := by
  obtain ⟨q, rfl⟩ := isFin_exists htmin
  exact ⟨F32.le_of_not_lt ht (by simp) h1, F32.le_of_not_lt htmax ht h2⟩

/-- The rectangle plane parameter is never NaN when the ray does not lie
in the plane. -/
theorem rectT_ne_nan {Y oy dy : ℚ} (h : ¬(dy = 0 ∧ oy = Y)) :
    F32.div (F32.sub (F32.fin Y) (F32.fin oy)) (F32.fin dy) ≠ F32.nan := by
  rw [F32.sub_fin_fin]
  simp only [F32.div]
  split
  · rename_i hdy
    have hne : Y - oy ≠ 0 := by
      intro h0
      exact h ⟨hdy, by linarith⟩
    rcases lt_trichotomy (Y - oy) 0 with hlt | heq | hgt
    · simp [not_lt.mpr (le_of_lt hlt), hlt]
    · exact absurd heq hne
    · simp [hgt]
  · simp

/-- Rotation of a finite vector by finite coefficients is finite. -/
theorem rot_allFin {ax : RAxis} {vx vy vz qs qc : ℚ} :
    V3.allFin (rotAxis ax ⟨F32.fin vx, F32.fin vy, F32.fin vz⟩
      (F32.fin qs) (F32.fin qc)) = true := by
  cases ax <;> simp [rotAxis, V3.allFin, F32.isFin, F32.mul_fin_fin,
    F32.add_fin_fin, F32.sub_fin_fin, F32.neg_fin]

theorem goodRay_elim {ray : Ray} (h : goodRay ray = true) :
    ∃ ox oy oz dx dy dz : ℚ,
      ray = ⟨⟨F32.fin ox, F32.fin oy, F32.fin oz⟩,
        ⟨F32.fin dx, F32.fin dy, F32.fin dz⟩⟩ ∧
      0 < dx * dx + dy * dy + dz * dz := by
  obtain ⟨⟨o1, o2, o3⟩, d1, d2, d3⟩ := ray
  simp only [goodRay, V3.allFin, Bool.and_eq_true] at h
  obtain ⟨⟨⟨⟨hx, hy⟩, hz⟩, ⟨hdx, hdy⟩, hdz⟩, hpos⟩ := h
  obtain ⟨ox, rfl⟩ := isFin_exists hx
  obtain ⟨oy, rfl⟩ := isFin_exists hy
  obtain ⟨oz, rfl⟩ := isFin_exists hz
  obtain ⟨dx, rfl⟩ := isFin_exists hdx
  obtain ⟨dy, rfl⟩ := isFin_exists hdy
  obtain ⟨dz, rfl⟩ := isFin_exists hdz
  simp only [V3.lengthSq, V3.dot, F32.mul_fin_fin, F32.add_fin_fin,
    F32.lt_fin_fin, decide_eq_true_eq] at hpos
  exact ⟨ox, oy, oz, dx, dy, dz, rfl, hpos⟩

/-- Under a good ray and finite sphere data, once the discriminant is
nonnegative both quadratic roots are finite and the smaller-root-first
order of the source holds. -/
theorem sphRoots_fin {center : V3} {radius : F32} {ray : Ray}
    (hg : goodRay ray = true) (hc : center.allFin = true)
    (hr : radius.isFin = true)
    (hd : F32.lt (Hittable.sphDisc center radius ray) (F32.fin 0) = false) :
    ∃ q1 q2 : ℚ, Hittable.sphRoot1 center radius ray = F32.fin q1 ∧
      Hittable.sphRoot2 center radius ray = F32.fin q2 ∧ q1 ≤ q2 := by
  obtain ⟨ox, oy, oz, dx, dy, dz, rfl, hpos⟩ := goodRay_elim hg
  obtain ⟨c1, c2, c3⟩ := center
  simp only [V3.allFin, Bool.and_eq_true] at hc
  obtain ⟨⟨hcx, hcy⟩, hcz⟩ := hc
  obtain ⟨cx, rfl⟩ := isFin_exists hcx
  obtain ⟨cy, rfl⟩ := isFin_exists hcy
  obtain ⟨cz, rfl⟩ := isFin_exists hcz
  obtain ⟨rad, rfl⟩ := isFin_exists hr
  have hA : dx * dx + dy * dy + dz * dz ≠ 0 := ne_of_gt hpos
  simp only [Hittable.sphDisc, Hittable.sphHalfB, Hittable.sphA, Hittable.sphC,
    Hittable.sphOC, V3.sub, V3.lengthSq, V3.dot, F32.sub_fin_fin, F32.add_fin_fin,
    F32.mul_fin_fin, F32.lt_fin_fin, decide_eq_false_iff_not, not_lt] at hd
  simp only [Hittable.sphRoot1, Hittable.sphRoot2, Hittable.sphDisc,
    Hittable.sphHalfB, Hittable.sphA, Hittable.sphC, Hittable.sphOC,
    V3.sub, V3.lengthSq, V3.dot, F32.sub_fin_fin, F32.add_fin_fin,
    F32.mul_fin_fin, F32.neg_fin, F32.sqrt, if_neg (not_lt.mpr hd),
    F32.div_fin_fin hA]
  refine ⟨_, _, rfl, rfl, ?_⟩
  have hs := F32.sqrtQ_nonneg
    (((ox - cx) * dx + (oy - cy) * dy + (oz - cz) * dz) *
        ((ox - cx) * dx + (oy - cy) * dy + (oz - cz) * dz) -
      (dx * dx + dy * dy + dz * dz) *
        ((ox - cx) * (ox - cx) + (oy - cy) * (oy - cy) + (oz - cz) * (oz - cz) -
          rad * rad))
  rw [div_le_div_iff_of_pos_right hpos]
  linarith

theorem hit_t_in_closed_interval {μ : Type} (tr : Trig)
    (hackI : μ → F32 → F32 → V3 → Bool) (obj : Hittable μ) :
    ∀ (ray : Ray) (tmin tmax : F32), goodRay ray = true → tmin.isFin = true →
      tmax ≠ F32.nan → obj.wf = true → obj.noDegen ray = true →
      ∀ res : HitRes μ, obj.hit tr hackI ray tmin tmax = some res →
        res.t ≠ F32.nan ∧ F32.le tmin res.t = true ∧ F32.le res.t tmax = true := by
  induction obj with
  | sphere center radius mat =>
    intro ray tmin tmax hg htmin htmax hwf hnd res hsome
    simp only [Hittable.wf, Bool.and_eq_true] at hwf
    obtain ⟨hc, hr⟩ := hwf
    simp only [Hittable.hit] at hsome
    split at hsome
    · exact absurd hsome (by simp)
    rename_i hdisc
    rw [Bool.not_eq_true] at hdisc
    obtain ⟨q1, q2, hq1, hq2, hle⟩ := sphRoots_fin hg hc hr hdisc
    rw [hq1, hq2] at hsome
    split at hsome
    · exact absurd hsome (by simp)
    rename_i t heq
    split at hsome
    · injection hsome with hres
      subst hres
      split at heq
      · split at heq
        · exact absurd heq (by simp)
        · rename_i hc2
          rw [Bool.not_eq_true, Bool.or_eq_false_iff] at hc2
          injection heq with ht
          subst ht
          exact ⟨by simp, (le_of_accept (by simp) htmin htmax hc2.1 hc2.2).1,
            (le_of_accept (by simp) htmin htmax hc2.1 hc2.2).2⟩
      · rename_i hc1
        rw [Bool.not_eq_true, Bool.or_eq_false_iff] at hc1
        injection heq with ht
        subst ht
        exact ⟨by simp, (le_of_accept (by simp) htmin htmax hc1.1 hc1.2).1,
          (le_of_accept (by simp) htmin htmax hc1.1 hc1.2).2⟩
    · exact absurd hsome (by simp)
  | xyRect x0 x1 y0 y1 z mat =>
    intro ray tmin tmax hg htmin htmax hwf hnd res hsome
    obtain ⟨ox, oy, oz, dx, dy, dz, rfl, hpos⟩ := goodRay_elim hg
    simp only [Hittable.wf, Bool.and_eq_true] at hwf
    obtain ⟨qz, rfl⟩ := isFin_exists hwf.2
    have hnd' : ¬(dz = 0 ∧ oz = qz) := by
      simpa [Hittable.noDegen, F32.fin.injEq, not_and, Decidable.imp_iff_not_or]
        using hnd
    have hT := rectT_ne_nan hnd'
    simp only [Hittable.hit, Hittable.planeT] at hsome
    split at hsome
    · exact absurd hsome (by simp)
    rename_i hcond
    rw [Bool.not_eq_true, Bool.or_eq_false_iff] at hcond
    split at hsome
    · exact absurd hsome (by simp)
    split at hsome
    · injection hsome with hres
      subst hres
      exact ⟨hT, (le_of_accept hT htmin htmax hcond.1 hcond.2).1,
        (le_of_accept hT htmin htmax hcond.1 hcond.2).2⟩
    · exact absurd hsome (by simp)
  | xzRect x0 x1 z0 z1 y mat =>
    intro ray tmin tmax hg htmin htmax hwf hnd res hsome
    obtain ⟨ox, oy, oz, dx, dy, dz, rfl, hpos⟩ := goodRay_elim hg
    simp only [Hittable.wf, Bool.and_eq_true] at hwf
    obtain ⟨qy, rfl⟩ := isFin_exists hwf.2
    have hnd' : ¬(dy = 0 ∧ oy = qy) := by
      simpa [Hittable.noDegen, F32.fin.injEq, not_and, Decidable.imp_iff_not_or]
        using hnd
    have hT := rectT_ne_nan hnd'
    simp only [Hittable.hit, Hittable.planeT] at hsome
    split at hsome
    · exact absurd hsome (by simp)
    rename_i hcond
    rw [Bool.not_eq_true, Bool.or_eq_false_iff] at hcond
    split at hsome
    · exact absurd hsome (by simp)
    split at hsome
    · injection hsome with hres
      subst hres
      exact ⟨hT, (le_of_accept hT htmin htmax hcond.1 hcond.2).1,
        (le_of_accept hT htmin htmax hcond.1 hcond.2).2⟩
    · exact absurd hsome (by simp)
  | yzRect y0 y1 z0 z1 x mat =>
    intro ray tmin tmax hg htmin htmax hwf hnd res hsome
    obtain ⟨ox, oy, oz, dx, dy, dz, rfl, hpos⟩ := goodRay_elim hg
    simp only [Hittable.wf, Bool.and_eq_true] at hwf
    obtain ⟨qx, rfl⟩ := isFin_exists hwf.2
    have hnd' : ¬(dx = 0 ∧ ox = qx) := by
      simpa [Hittable.noDegen, F32.fin.injEq, not_and, Decidable.imp_iff_not_or]
        using hnd
    have hT := rectT_ne_nan hnd'
    simp only [Hittable.hit, Hittable.planeT] at hsome
    split at hsome
    · exact absurd hsome (by simp)
    rename_i hcond
    rw [Bool.not_eq_true, Bool.or_eq_false_iff] at hcond
    split at hsome
    · exact absurd hsome (by simp)
    split at hsome
    · injection hsome with hres
      subst hres
      exact ⟨hT, (le_of_accept hT htmin htmax hcond.1 hcond.2).1,
        (le_of_accept hT htmin htmax hcond.1 hcond.2).2⟩
    · exact absurd hsome (by simp)
  | bvhnode l r box ihl ihr =>
    intro ray tmin tmax hg htmin htmax hwf hnd res hsome
    simp only [Hittable.wf, Bool.and_eq_true] at hwf
    simp only [Hittable.noDegen, Bool.and_eq_true] at hnd
    simp only [Hittable.hit] at hsome
    split at hsome
    · exact absurd hsome (by simp)
    rcases hl : Hittable.hit tr hackI l ray tmin tmax with _ | lres
    · simp only [hl] at hsome
      exact ihr ray tmin tmax hg htmin htmax hwf.2 hnd.2 res hsome
    · simp only [hl] at hsome
      obtain ⟨hln, hl1, hl2⟩ := ihl ray tmin tmax hg htmin htmax hwf.1 hnd.1 lres hl
      rcases hr2 : Hittable.hit tr hackI r ray tmin lres.t with _ | rres
      · simp only [hr2] at hsome
        injection hsome with h
        subst h
        exact ⟨hln, hl1, hl2⟩
      · simp only [hr2] at hsome
        injection hsome with h
        subst h
        obtain ⟨hrn, hr1, hr3⟩ := ihr ray tmin lres.t hg htmin hln hwf.2 hnd.2 rres hr2
        exact ⟨hrn, hr1, F32.le_trans hr3 hl2⟩
  | rotate ax inner box sinT cosT ih =>
    intro ray tmin tmax hg htmin htmax hwf hnd res hsome
    simp only [Hittable.wf, Bool.and_eq_true, decide_eq_true_eq] at hwf
    obtain ⟨hpyth, hwfi⟩ := hwf
    obtain ⟨qs, qc, rfl, rfl, hsc⟩ := sincos_fin hpyth
    obtain ⟨ox, oy, oz, dx, dy, dz, rfl, hpos⟩ := goodRay_elim hg
    simp only [Hittable.noDegen] at hnd
    simp only [Hittable.hit] at hsome
    have hgood2 : goodRay ⟨rotAxis ax ⟨F32.fin ox, F32.fin oy, F32.fin oz⟩
        (F32.neg (F32.fin qs)) (F32.fin qc),
        rotAxis ax ⟨F32.fin dx, F32.fin dy, F32.fin dz⟩
        (F32.neg (F32.fin qs)) (F32.fin qc)⟩ = true := by
      simp only [goodRay, Bool.and_eq_true, F32.neg_fin]
      refine ⟨⟨rot_allFin, rot_allFin⟩, ?_⟩
      rw [rot_lengthSq (by nlinarith [hsc])]
      simp only [V3.lengthSq, V3.dot, F32.mul_fin_fin, F32.add_fin_fin,
        F32.lt_fin_fin, decide_eq_true_eq]
      exact hpos
    split at hsome
    · exact absurd hsome (by simp)
    rename_i ires heq
    injection hsome with hres
    subst hres
    exact ih _ tmin tmax hgood2 htmin htmax hwfi hnd ires heq
  | translate inner offset box ih =>
    intro ray tmin tmax hg htmin htmax hwf hnd res hsome
    simp only [Hittable.wf, Bool.and_eq_true] at hwf
    obtain ⟨hoff, hwfi⟩ := hwf
    obtain ⟨ox, oy, oz, dx, dy, dz, rfl, hpos⟩ := goodRay_elim hg
    obtain ⟨f1, f2, f3⟩ := offset
    simp only [V3.allFin, Bool.and_eq_true] at hoff
    obtain ⟨⟨ho1, ho2⟩, ho3⟩ := hoff
    obtain ⟨w1, rfl⟩ := isFin_exists ho1
    obtain ⟨w2, rfl⟩ := isFin_exists ho2
    obtain ⟨w3, rfl⟩ := isFin_exists ho3
    simp only [Hittable.noDegen] at hnd
    simp only [Hittable.hit] at hsome
    have hgood2 : goodRay ⟨V3.sub ⟨F32.fin ox, F32.fin oy, F32.fin oz⟩
        ⟨F32.fin w1, F32.fin w2, F32.fin w3⟩,
        ⟨F32.fin dx, F32.fin dy, F32.fin dz⟩⟩ = true := by
      simp only [goodRay, Bool.and_eq_true, V3.sub, V3.allFin, F32.sub_fin_fin,
        F32.isFin, V3.lengthSq, V3.dot, F32.mul_fin_fin, F32.add_fin_fin,
        F32.lt_fin_fin, decide_eq_true_eq]
      exact ⟨⟨by simp, by simp⟩, hpos⟩
    split at hsome
    · exact absurd hsome (by simp)
    rename_i ires heq
    injection hsome with hres
    subst hres
    exact ih _ tmin tmax hgood2 htmin htmax hwfi hnd ires heq

theorem hitGo_t_in_closed_interval {μ : Type} (tr : Trig)
    (hackI : μ → F32 → F32 → V3 → Bool) (ray : Ray) (tmin tmax : F32)
    (hg : goodRay ray = true) (htmin : tmin.isFin = true)
    (htmax : tmax ≠ F32.nan) :
    ∀ (objs : List (Hittable μ)) (best : Option (HitRes μ)) (closest : F32),
      (∀ o ∈ objs, o.wf = true ∧ o.noDegen ray = true) →
      closest ≠ F32.nan → F32.le closest tmax = true →
      (∀ b, best = some b →
        b.t ≠ F32.nan ∧ F32.le tmin b.t = true ∧ F32.le b.t tmax = true) →
      ∀ res, HittableList.hitGo tr hackI ray tmin objs best closest = some res →
        res.t ≠ F32.nan ∧ F32.le tmin res.t = true ∧ F32.le res.t tmax = true := by
  intro objs
  induction objs with
  | nil =>
    intro best closest _ _ _ hbest res h
    exact hbest res h
  | cons o os iho =>
    intro best closest hmem hcn hcle hbest res h
    simp only [HittableList.hitGo] at h
    rcases ho : o.hit tr hackI ray tmin closest with _ | r
    · rw [ho] at h
      exact iho best closest (fun o' ho' => hmem o' (List.mem_cons_of_mem _ ho'))
        hcn hcle hbest res h
    · rw [ho] at h
      obtain ⟨hrn, hr1, hr2⟩ := hit_t_in_closed_interval tr hackI o ray tmin
        closest hg htmin hcn (hmem o (List.mem_cons_self o os)).1
        (hmem o (List.mem_cons_self o os)).2 r ho
      have hrt : F32.le r.t tmax = true := F32.le_trans hr2 hcle
      exact iho (some r) r.t (fun o' ho' => hmem o' (List.mem_cons_of_mem _ ho'))
        hrn hrt
        (by
          intro b hb
          injection hb with hb
          subst hb
          exact ⟨hrn, hr1, hrt⟩) res h

theorem hitList_t_in_closed_interval {μ : Type} (tr : Trig)
    (hackI : μ → F32 → F32 → V3 → Bool) (objs : List (Hittable μ)) (ray : Ray)
    (tmin tmax : F32) (hg : goodRay ray = true) (htmin : tmin.isFin = true)
    (htmax : tmax ≠ F32.nan)
    (hmem : ∀ o ∈ objs, o.wf = true ∧ o.noDegen ray = true)
    (res : HitRes μ)
    (h : HittableList.hit tr hackI objs ray tmin tmax = some res) :
    res.t ≠ F32.nan ∧ F32.le tmin res.t = true ∧ F32.le res.t tmax = true :=
  hitGo_t_in_closed_interval tr hackI ray tmin tmax hg htmin htmax objs none tmax
    hmem htmax (F32.le_refl htmax) (by intro b hb; exact absurd hb (by simp)) res h

theorem sphere_hit_closest {μ : Type} (tr : Trig)
    (hackI : μ → F32 → F32 → V3 → Bool) (center : V3) (radius : F32) (mat : μ)
    (ray : Ray) (tmin tmax : F32) (hg : goodRay ray = true)
    (hc : center.allFin = true) (hr : radius.isFin = true) (res : HitRes μ)
    (hsome : (Hittable.sphere center radius mat).hit tr hackI ray tmin tmax =
      some res) :
    ∀ t', (t' = Hittable.sphRoot1 center radius ray ∨
        t' = Hittable.sphRoot2 center radius ray) →
      F32.lt t' tmin = false → F32.gt t' tmax = false →
      F32.le res.t t' = true := by
  simp only [Hittable.hit] at hsome
  split at hsome
  · exact absurd hsome (by simp)
  rename_i hdisc
  rw [Bool.not_eq_true] at hdisc
  obtain ⟨q1, q2, hq1, hq2, hle⟩ := sphRoots_fin hg hc hr hdisc
  rw [hq1, hq2] at hsome
  split at hsome
  · exact absurd hsome (by simp)
  rename_i t heq
  split at hsome
  · injection hsome with hres
    subst hres
    split at heq
    · rename_i hc1
      split at heq
      · exact absurd heq (by simp)
      · injection heq with ht
        subst ht
        intro t' ht' h1 h2
        rcases ht' with rfl | rfl
        · rw [hq1] at h1 h2 ⊢
          rcases Bool.or_eq_true_iff.mp hc1 with hx | hx
          · exact absurd hx (by simp [h1])
          · exact absurd hx (by simp [F32.gt] at h2 ⊢; exact h2)
        · rw [hq2]
          exact F32.le_refl (by simp)
    · injection heq with ht
      subst ht
      intro t' ht' h1 h2
      rcases ht' with rfl | rfl
      · rw [hq1]
        exact F32.le_refl (by simp)
      · rw [hq2]
        simp [F32.le_fin_fin, hle]
  · exact absurd hsome (by simp)

theorem xyRect_hit_t {μ : Type} (tr : Trig) (hackI : μ → F32 → F32 → V3 → Bool)
    (x0 x1 y0 y1 z : F32) (mat : μ) (ray : Ray) (tmin tmax : F32)
    (res : HitRes μ)
    (h : (Hittable.xyRect x0 x1 y0 y1 z mat).hit tr hackI ray tmin tmax =
      some res) :
    res.t = Hittable.planeT z ray.origin.z ray.direction.z := by
  simp only [Hittable.hit] at h
  split at h
  · exact absurd h (by simp)
  split at h
  · exact absurd h (by simp)
  split at h
  · injection h with h
    subst h
    rfl
  · exact absurd h (by simp)

theorem xzRect_hit_t {μ : Type} (tr : Trig) (hackI : μ → F32 → F32 → V3 → Bool)
    (x0 x1 z0 z1 y : F32) (mat : μ) (ray : Ray) (tmin tmax : F32)
    (res : HitRes μ)
    (h : (Hittable.xzRect x0 x1 z0 z1 y mat).hit tr hackI ray tmin tmax =
      some res) :
    res.t = Hittable.planeT y ray.origin.y ray.direction.y := by
  simp only [Hittable.hit] at h
  split at h
  · exact absurd h (by simp)
  split at h
  · exact absurd h (by simp)
  split at h
  · injection h with h
    subst h
    rfl
  · exact absurd h (by simp)

theorem yzRect_hit_t {μ : Type} (tr : Trig) (hackI : μ → F32 → F32 → V3 → Bool)
    (y0 y1 z0 z1 x : F32) (mat : μ) (ray : Ray) (tmin tmax : F32)
    (res : HitRes μ)
    (h : (Hittable.yzRect y0 y1 z0 z1 x mat).hit tr hackI ray tmin tmax =
      some res) :
    res.t = Hittable.planeT x ray.origin.x ray.direction.x := by
  simp only [Hittable.hit] at h
  split at h
  · exact absurd h (by simp)
  split at h
  · exact absurd h (by simp)
  split at h
  · injection h with h
    subst h
    rfl
  · exact absurd h (by simp)

/-- C4, amended.  For every `Hittable` variant under a finite nonzero
ray, finite parameters (`wf`), no ray lying exactly in a rectangle's
plane (`noDegen`), finite `t_min` and non-NaN `t_max`: a returned hit's
`t` lies in the *closed* interval `[t_min, t_max]` (both endpoints are
accepted by the source's `<`/`>` rejections), and likewise for the
`HittableList` scan.  The sphere additionally returns the smallest
accepted quadratic root, and each axis rectangle the unique plane
parameter.  The original claim's open-interval strictness is false, and
closest-hit for `BvhNode` is false (a node's slab test can degenerately
reject a subtree containing a closer hit; see the counterexample), so
closest-ness is stated for the primitives only. -/
theorem hit_result_interval_spec {μ : Type} (tr : Trig)
    (hackI : μ → F32 → F32 → V3 → Bool) (ray : Ray) (tmin tmax : F32)
    (hg : goodRay ray = true) (htmin : tmin.isFin = true)
    (htmax : tmax ≠ F32.nan) :
    (∀ obj : Hittable μ, obj.wf = true → obj.noDegen ray = true →
      ∀ res, obj.hit tr hackI ray tmin tmax = some res →
        res.t ≠ F32.nan ∧ F32.le tmin res.t = true ∧
          F32.le res.t tmax = true) ∧
    (∀ objs : List (Hittable μ),
      (∀ o ∈ objs, o.wf = true ∧ o.noDegen ray = true) →
      ∀ res, HittableList.hit tr hackI objs ray tmin tmax = some res →
        res.t ≠ F32.nan ∧ F32.le tmin res.t = true ∧
          F32.le res.t tmax = true) ∧
    (∀ (center : V3) (radius : F32) (mat : μ) (res : HitRes μ),
      center.allFin = true → radius.isFin = true →
      (Hittable.sphere center radius mat).hit tr hackI ray tmin tmax =
        some res →
      ∀ t', (t' = Hittable.sphRoot1 center radius ray ∨
          t' = Hittable.sphRoot2 center radius ray) →
        F32.lt t' tmin = false → F32.gt t' tmax = false →
        F32.le res.t t' = true) ∧
    (∀ (x0 x1 y0 y1 z : F32) (mat : μ) (res : HitRes μ),
      (Hittable.xyRect x0 x1 y0 y1 z mat).hit tr hackI ray tmin tmax =
        some res → res.t = Hittable.planeT z ray.origin.z ray.direction.z) ∧
    (∀ (x0 x1 z0 z1 y : F32) (mat : μ) (res : HitRes μ),
      (Hittable.xzRect x0 x1 z0 z1 y mat).hit tr hackI ray tmin tmax =
        some res → res.t = Hittable.planeT y ray.origin.y ray.direction.y) ∧
    (∀ (y0 y1 z0 z1 x : F32) (mat : μ) (res : HitRes μ),
      (Hittable.yzRect y0 y1 z0 z1 x mat).hit tr hackI ray tmin tmax =
        some res → res.t = Hittable.planeT x ray.origin.x ray.direction.x) :=
  ⟨fun obj hwf hnd res h =>
      hit_t_in_closed_interval tr hackI obj ray tmin tmax hg htmin htmax hwf
        hnd res h,
    fun objs hmem res h =>
      hitList_t_in_closed_interval tr hackI objs ray tmin tmax hg htmin htmax
        hmem res h,
    fun center radius mat res hc hr h =>
      sphere_hit_closest tr hackI center radius mat ray tmin tmax hg hc hr
        res h,
    fun x0 x1 y0 y1 z mat res h =>
      xyRect_hit_t tr hackI x0 x1 y0 y1 z mat ray tmin tmax res h,
    fun x0 x1 z0 z1 y mat res h =>
      xzRect_hit_t tr hackI x0 x1 z0 z1 y mat ray tmin tmax res h,
    fun y0 y1 z0 z1 x mat res h =>
      yzRect_hit_t tr hackI y0 y1 z0 z1 x mat ray tmin tmax res h⟩

/-- A ray lying exactly in the plane of `rectA` (`y = 0`, direction with
zero y component): the rectangle's `t = 0 / 0` is NaN and the hit is
accepted with `t = NaN`. -/
def rayP : Ray :=
  ⟨⟨F32.fin 0, F32.fin 0, F32.fin 0⟩, ⟨F32.fin 1, F32.fin 0, F32.fin 1⟩⟩

/-- C4, counterexample.  Three concrete violations of the claim as
stated: (1) a rectangle accepts a hit with `t` exactly equal to `t_min`
(so `t` is not strictly inside the open interval); (2) a freshly built
BVH returns a hit at `t = 6` although one of its objects is hit at
`t = 1 < 6` on the same interval (so the BVH result is not the closest
valid intersection); (3) a ray lying in a rectangle's plane yields an
accepted hit with `t = NaN`, which is not even in the closed interval. -/
theorem hit_result_interval_counterexample :
    ((rectA.hit trig0 hackTrue rayCE (F32.fin 1) (F32.fin 5)).map
        (fun r => r.t) = some (F32.fin 1) ∧
      F32.lt (F32.fin 1) (F32.fin 1) = false) ∧
    (((BvhNode.new rectA axis0 [rectA, rectB, rectC]).hit trig0 hackTrue rayCE
        (F32.fin (1 / 1000)) (F32.fin 100)).map (fun r => r.t) =
        some (F32.fin 6) ∧
      (rectA.hit trig0 hackTrue rayCE (F32.fin (1 / 1000))
          (F32.fin 100)).map (fun r => r.t) = some (F32.fin 1) ∧
      F32.lt (F32.fin 1) (F32.fin 6) = true) ∧
    ((rectA.hit trig0 hackTrue rayP (F32.fin (1 / 1000))
        (F32.fin 100)).map (fun r => r.t) = some F32.nan ∧
      F32.le (F32.fin (1 / 1000)) F32.nan = false) := by
  refine ⟨⟨?_, by norm_num [F32.lt]⟩, ⟨?_, ?_, by norm_num [F32.lt]⟩, ?_, rfl⟩
  · norm_num [Hittable.hit, Hittable.planeT, rectA, rayCE, trig0, hackTrue,
      F32.lt, F32.gt, F32.le, F32.add_fin_fin, F32.sub_fin_fin, F32.mul_fin_fin,
      F32.div, F32.neg_fin, V3.dot, Ray.at, V3.add, V3.smul, V3.sub]
  · norm_num [BvhNode.new, BvhNode.newFuel, BvhNode.cmpLt, BvhNode.cmpGt, sortBy,
      insertBy, Hittable.bounding_box, Hittable.rectPad, AABB.surrounding_box,
      AABB.hit, AABB.slabAxis, Hittable.hit, Hittable.planeT, rectA, rectB,
      rectC, rayCE, trig0, hackTrue, axis0, F32.totalCmp_fin_fin, compare,
      compareOfLessAndEq, F32.lt, F32.gt, F32.le, F32.add_fin_fin,
      F32.sub_fin_fin, F32.mul_fin_fin, F32.div, F32.neg_fin, F32.min_fin_fin,
      F32.max_fin_fin, V3.dot, Ray.at, V3.add, V3.smul, V3.sub, V3.vmin,
      V3.vmax, V3.get, V3.splat]
  · norm_num [Hittable.hit, Hittable.planeT, rectA, rayCE, trig0, hackTrue,
      F32.lt, F32.gt, F32.le, F32.add_fin_fin, F32.sub_fin_fin, F32.mul_fin_fin,
      F32.div, F32.neg_fin, V3.dot, Ray.at, V3.add, V3.smul, V3.sub]
  · norm_num [Hittable.hit, Hittable.planeT, rectA, rayP, trig0, hackTrue,
      F32.lt, F32.gt, F32.le, F32.add, F32.sub, F32.mul, F32.div, F32.neg,
      V3.dot, Ray.at, V3.add, V3.smul, V3.sub]

/-- The concrete hit record `rectA` produces for `rayCE` on the interval
`[0.001, 100]`. -/
def resW : HitRes ℕ :=
  ⟨⟨F32.fin 0, F32.fin 0, F32.fin 1⟩, ⟨F32.fin 0, F32.fin 1, F32.fin 0⟩,
    F32.fin 1, true, 0, F32.fin 0, F32.fin 1⟩

/-- C4 witness: the amended theorem applied to `rectA` and the concrete
ray, with every hypothesis discharged. -/
theorem hit_result_interval_witness :
    F32.le (F32.fin (1 / 1000)) (F32.fin 1) = true ∧
    F32.le (F32.fin 1) (F32.fin 100) = true := by
  have hhit : rectA.hit trig0 hackTrue rayCE (F32.fin (1 / 1000))
      (F32.fin 100) = some resW := by
    norm_num [Hittable.hit, Hittable.planeT, rectA, rayCE, trig0, hackTrue,
      resW, F32.lt, F32.gt, F32.le, F32.add_fin_fin, F32.sub_fin_fin,
      F32.mul_fin_fin, F32.div, F32.neg_fin, V3.dot, Ray.at, V3.add, V3.smul,
      V3.sub, V3.neg]
  have h := (hit_result_interval_spec trig0 hackTrue rayCE (F32.fin (1 / 1000))
      (F32.fin 100)
      (by norm_num [goodRay, rayCE, V3.allFin, F32.isFin, V3.lengthSq, V3.dot,
        F32.mul_fin_fin, F32.add_fin_fin, F32.lt_fin_fin])
      (by norm_num [F32.isFin]) (by simp)).1 rectA
      (by norm_num [Hittable.wf, rectA, F32.isFin])
      (by norm_num [Hittable.noDegen, rectA, rayCE]) resW hhit
  exact ⟨h.2.1, h.2.2⟩

/-- C5, amended.  `BvhNode::hit` rejects immediately when the ray misses
the node's box; otherwise the left subtree is tested over the full
interval; if it hit at `t_left` the right subtree is tested over the
tightened interval with upper bound `t_left`, and the right result
overrides the left exactly when the right subtree also hit — at a `t`
*no greater than* `t_left` (equality is possible: the tightened upper
bound is itself accepted, so the override need not be strictly closer);
if the left subtree missed, the right subtree is tested over the
original interval. -/
theorem bvh_node_hit_spec {μ : Type} (tr : Trig)
    (hackI : μ → F32 → F32 → V3 → Bool) (l r : Hittable μ) (box : AABB)
    (ray : Ray) (tmin tmax : F32)
    (hL : ∀ res, l.hit tr hackI ray tmin tmax = some res → res.t ≠ F32.nan)
    (hR : ∀ (c : F32) (rr : HitRes μ), c ≠ F32.nan →
      r.hit tr hackI ray tmin c = some rr → F32.le rr.t c = true) :
    (box.hit ray tmin tmax = false →
      (Hittable.bvhnode l r box).hit tr hackI ray tmin tmax = none) ∧
    (box.hit ray tmin tmax = true →
      (∀ res, l.hit tr hackI ray tmin tmax = some res →
        (Hittable.bvhnode l r box).hit tr hackI ray tmin tmax =
          (match r.hit tr hackI ray tmin res.t with
            | some rr => some rr
            | none => some res) ∧
        (∀ rr, r.hit tr hackI ray tmin res.t = some rr →
          F32.le rr.t res.t = true)) ∧
      (l.hit tr hackI ray tmin tmax = none →
        (Hittable.bvhnode l r box).hit tr hackI ray tmin tmax =
          r.hit tr hackI ray tmin tmax)) := by
  refine ⟨fun hb => ?_, fun hb => ⟨fun res hres => ⟨?_, fun rr hrr => ?_⟩,
    fun hnone => ?_⟩⟩
  · simp [Hittable.hit, hb]
  · simp [Hittable.hit, hb, ‹l.hit tr hackI ray tmin tmax = some res›]
  · exact hR res.t rr (hL res hres) hrr
  · simp [Hittable.hit, hb, hnone]

/-- Coincident unit rectangle (material tag 5) for the C5 tie. -/
def rectD1 : Hittable ℕ :=
  .xzRect (F32.fin 0) (F32.fin 1) (F32.fin 0) (F32.fin 1) (F32.fin 0) 5

/-- Coincident unit rectangle (material tag 6) for the C5 tie. -/
def rectD2 : Hittable ℕ :=
  .xzRect (F32.fin 0) (F32.fin 1) (F32.fin 0) (F32.fin 1) (F32.fin 0) 6

/-- A BVH node over the two coincident rectangles. -/
def nodeD : Hittable ℕ :=
  .bvhnode rectD1 rectD2
    (AABB.surrounding_box rectD1.bounding_box rectD2.bounding_box)

/-- A ray hitting both coincident rectangles at `t = 1`. -/
def rayD : Ray :=
  ⟨⟨F32.fin (1 / 2), F32.fin 1, F32.fin (1 / 2)⟩,
    ⟨F32.fin (1 / 8), F32.fin (-1), F32.fin (1 / 8)⟩⟩

/-- C5, counterexample.  Both children of `nodeD` are hit at the same
`t = 1`; the node's result is the right child's hit (different material
tag than the left child's), so the right result overrides the left at a
`t` that is *not* strictly closer. -/
theorem bvh_node_tie_counterexample :
    (nodeD.hit trig0 hackTrue rayD (F32.fin (1 / 1000)) (F32.fin 100)).map
        (fun res => (res.t, res.mat)) = some (F32.fin 1, 6) ∧
    (rectD1.hit trig0 hackTrue rayD (F32.fin (1 / 1000)) (F32.fin 100)).map
        (fun res => (res.t, res.mat)) = some (F32.fin 1, 5) ∧
    F32.lt (F32.fin 1) (F32.fin 1) = false := by
  refine ⟨?_, ?_, by norm_num [F32.lt]⟩
  · norm_num [nodeD, rectD1, rectD2, rayD, trig0, hackTrue, Hittable.hit,
      Hittable.planeT, Hittable.bounding_box, Hittable.rectPad,
      AABB.surrounding_box, AABB.hit, AABB.slabAxis, F32.lt, F32.gt, F32.le,
      F32.add_fin_fin, F32.sub_fin_fin, F32.mul_fin_fin, F32.div, F32.neg_fin,
      F32.min_fin_fin, F32.max_fin_fin, V3.dot, Ray.at, V3.add, V3.smul,
      V3.sub, V3.vmin, V3.vmax]
  · norm_num [rectD1, rayD, trig0, hackTrue, Hittable.hit, Hittable.planeT,
      F32.lt, F32.gt, F32.le, F32.add_fin_fin, F32.sub_fin_fin, F32.mul_fin_fin,
      F32.div, F32.neg_fin, V3.dot, Ray.at, V3.add, V3.smul, V3.sub]

/-- The concrete test ray misses `rectC` for every upper bound: the
plane parameter is `t = 1` but the hit point has `x = 0`, outside the
rectangle's `[10, 11]` range. -/
theorem rectC_miss (c : F32) :
    rectC.hit trig0 hackTrue rayCE (F32.fin (1 / 1000)) c = none := by
  simp only [Hittable.hit, Hittable.planeT, rectC, rayCE, trig0, hackTrue]
  norm_num [F32.lt, F32.add_fin_fin, F32.sub_fin_fin, F32.mul_fin_fin, F32.div]

/-- A degenerate box (a single point) whose slab test rejects the
concrete test ray. -/
def pointBox : AABB :=
  ⟨⟨F32.fin 0, F32.fin 0, F32.fin 0⟩, ⟨F32.fin 0, F32.fin 0, F32.fin 0⟩⟩

/-- C5 witness: the amended theorem applied to a concrete node whose box
the ray misses; the node's hit is none. -/
theorem bvh_node_hit_spec_witness :
    pointBox.hit rayCE (F32.fin (1 / 1000)) (F32.fin 100) = false ∧
    (Hittable.bvhnode rectC rectC pointBox).hit trig0 hackTrue rayCE
      (F32.fin (1 / 1000)) (F32.fin 100) = none := by
  have hbox : pointBox.hit rayCE (F32.fin (1 / 1000)) (F32.fin 100) = false := by
    norm_num [pointBox, rayCE, AABB.hit, AABB.slabAxis, F32.lt, F32.le,
      F32.add_fin_fin, F32.sub_fin_fin, F32.mul_fin_fin, F32.div,
      F32.min_fin_fin, F32.max_fin_fin]
  have h := (bvh_node_hit_spec trig0 hackTrue rectC rectC pointBox rayCE
      (F32.fin (1 / 1000)) (F32.fin 100)
      (fun res hres => by rw [rectC_miss] at hres; exact absurd hres (by simp))
      (fun c rr hc hrr => by
        rw [rectC_miss] at hrr
        exact absurd hrr (by simp))).1 hbox
  exact ⟨hbox, h⟩

/-- Behavioural contract of one scene object along a fixed ray and lower
bound, abstracting what every well-behaved `hit` satisfies as the upper
bound varies: results stay within the bound and are not NaN (`ranged`),
a result re-queried with any tighter upper bound still at or above its
`t` is returned unchanged (`stable`), tightening the upper bound below a
result's `t` yields no hit (`noCloser`), and a miss stays a miss under
tightening (`noneMono`). -/
structure GoodHit (tr : Trig) (hackI : μ → F32 → F32 → V3 → Bool)
    (o : Hittable μ) (ray : Ray) (tmin : F32) : Prop where
  ranged : ∀ (c : F32) (r : HitRes μ), c ≠ F32.nan →
    o.hit tr hackI ray tmin c = some r → r.t ≠ F32.nan ∧ F32.le r.t c = true
  stable : ∀ (c c' : F32) (r : HitRes μ), c ≠ F32.nan → c' ≠ F32.nan →
    o.hit tr hackI ray tmin c = some r → F32.le r.t c' = true →
    F32.le c' c = true → o.hit tr hackI ray tmin c' = some r
  noCloser : ∀ (c c' : F32) (r : HitRes μ),
    o.hit tr hackI ray tmin c = some r → F32.lt c' r.t = true →
    o.hit tr hackI ray tmin c' = none
  noneMono : ∀ c c' : F32, o.hit tr hackI ray tmin c = none →
    F32.le c' c = true → o.hit tr hackI ray tmin c' = none

/-- No two hits of the two objects (at any upper bounds) share a `t`. -/
def HitNoTies (tr : Trig) (hackI : μ → F32 → F32 → V3 → Bool) (ray : Ray)
    (tmin : F32) (o o' : Hittable μ) : Prop :=
  ∀ (c c' : F32) (r r' : HitRes μ), o.hit tr hackI ray tmin c = some r →
    o'.hit tr hackI ray tmin c' = some r' → r.t ≠ r'.t

theorem HitNoTies.symm {tr : Trig} {hackI : μ → F32 → F32 → V3 → Bool}
    {ray : Ray} {tmin : F32} {o o' : Hittable μ}
    (h : HitNoTies tr hackI ray tmin o o') : HitNoTies tr hackI ray tmin o' o :=
  fun c c' r r' hr hr' => (h c' c r' r hr' hr).symm

/-- Every node of a BVH subtree is conservatively covered by its box:
whenever the slab test rejects an interval, both children miss on it. -/
def Hittable.covered (tr : Trig) (hackI : μ → F32 → F32 → V3 → Bool)
    (ray : Ray) (tmin : F32) : Hittable μ → Prop
  | .bvhnode l r box =>
    (∀ c, c ≠ F32.nan → box.hit ray tmin c = false →
      l.hit tr hackI ray tmin c = none ∧ r.hit tr hackI ray tmin c = none) ∧
    l.covered tr hackI ray tmin ∧ r.covered tr hackI ray tmin
  | _ => True

theorem hitGo_eq_scanHit {μ : Type} (tr : Trig)
    (hackI : μ → F32 → F32 → V3 → Bool) (ray : Ray) (tmin : F32)
    (objs : List (Hittable μ)) :
    ∀ (best : Option (HitRes μ)) (c : F32),
      HittableList.hitGo tr hackI ray tmin objs best c =
        match scanHit tr hackI ray tmin objs c with
        | some r => some r
        | none => best := by
  induction objs with
  | nil => intro best c; rfl
  | cons o os ih =>
    intro best c
    rcases ho : o.hit tr hackI ray tmin c with _ | r
    · simp only [HittableList.hitGo, scanHit, ho]
      exact ih best c
    · simp only [HittableList.hitGo, scanHit, ho]
      rw [ih (some r) r.t]
      rcases scanHit tr hackI ray tmin os r.t with _ | r2 <;> simp

theorem hitList_eq_scanHit {μ : Type} (tr : Trig)
    (hackI : μ → F32 → F32 → V3 → Bool) (objs : List (Hittable μ)) (ray : Ray)
    (tmin tmax : F32) :
    HittableList.hit tr hackI objs ray tmin tmax =
      scanHit tr hackI ray tmin objs tmax := by
  rw [HittableList.hit, hitGo_eq_scanHit]
  rcases scanHit tr hackI ray tmin objs tmax with _ | r <;> simp

theorem scanHit_append {μ : Type} (tr : Trig)
    (hackI : μ → F32 → F32 → V3 → Bool) (ray : Ray) (tmin : F32)
    (xs ys : List (Hittable μ)) :
    ∀ c : F32,
      scanHit tr hackI ray tmin (xs ++ ys) c =
        match scanHit tr hackI ray tmin xs c with
        | some r =>
          (match scanHit tr hackI ray tmin ys r.t with
            | some r2 => some r2
            | none => some r)
        | none => scanHit tr hackI ray tmin ys c := by
  induction xs with
  | nil => intro c; simp [scanHit]
  | cons x xs ih =>
    intro c
    rcases hx : x.hit tr hackI ray tmin c with _ | r
    · simp only [List.cons_append, scanHit, hx]
      exact ih c
    · simp only [List.cons_append, scanHit, hx, List.append_eq]
      rw [ih r.t]
      rcases hxs : scanHit tr hackI ray tmin xs r.t with _ | r1
      · rfl
      · rcases hys : scanHit tr hackI ray tmin ys r1.t with _ | r2 <;> simp [hys]

theorem scanHit_ranged {μ : Type} {tr : Trig}
    {hackI : μ → F32 → F32 → V3 → Bool} {ray : Ray} {tmin : F32}
    (objs : List (Hittable μ))
    (hmem : ∀ o ∈ objs, GoodHit tr hackI o ray tmin) :
    ∀ (c : F32) (r : HitRes μ), c ≠ F32.nan →
      scanHit tr hackI ray tmin objs c = some r →
      r.t ≠ F32.nan ∧ F32.le r.t c = true := by
  induction objs with
  | nil => intro c r _ h; exact absurd h (by simp [scanHit])
  | cons o os ih =>
    intro c r hc h
    rcases ho : o.hit tr hackI ray tmin c with _ | r0
    · simp only [scanHit, ho] at h
      exact ih (fun o' ho' => hmem o' (List.mem_cons_of_mem _ ho')) c r hc h
    · simp only [scanHit, ho] at h
      obtain ⟨h0n, h0c⟩ := (hmem o (List.mem_cons_self o os)).ranged c r0 hc ho
      rcases hs : scanHit tr hackI ray tmin os r0.t with _ | r2
      · simp only [hs] at h
        injection h with h
        subst h
        exact ⟨h0n, h0c⟩
      · simp only [hs] at h
        injection h with h
        subst h
        obtain ⟨h2n, h2c⟩ :=
          ih (fun o' ho' => hmem o' (List.mem_cons_of_mem _ ho')) r0.t r2 h0n hs
        exact ⟨h2n, F32.le_trans h2c h0c⟩

theorem insertBy_perm (lt : α → α → Bool) (a : α) (l : List α) :
    (insertBy lt a l).Perm (a :: l) := by
  induction l with
  | nil => simp [insertBy]
  | cons b bs ih =>
    simp only [insertBy]
    split
    · exact List.Perm.refl _
    · exact (ih.cons b).trans (List.Perm.swap a b bs)

theorem sortBy_perm (lt : α → α → Bool) (l : List α) :
    (sortBy lt l).Perm l := by
  induction l with
  | nil => simp [sortBy]
  | cons a as ih => exact (insertBy_perm lt a (sortBy lt as)).trans (ih.cons a)

theorem scanHit_swap {μ : Type} {tr : Trig}
    {hackI : μ → F32 → F32 → V3 → Bool} {ray : Ray} {tmin : F32}
    (a b : Hittable μ) (l : List (Hittable μ))
    (hga : GoodHit tr hackI a ray tmin) (hgb : GoodHit tr hackI b ray tmin)
    (hties : HitNoTies tr hackI ray tmin a b) :
    ∀ c : F32, c ≠ F32.nan →
      scanHit tr hackI ray tmin (a :: b :: l) c =
        scanHit tr hackI ray tmin (b :: a :: l) c := by
  intro c hc
  rcases ha : a.hit tr hackI ray tmin c with _ | ra <;>
    rcases hb : b.hit tr hackI ray tmin c with _ | rb
  · simp only [scanHit, ha, hb]
  · obtain ⟨hrbn, hrbc⟩ := hgb.ranged c rb hc hb
    have ha' : a.hit tr hackI ray tmin rb.t = none := hga.noneMono c rb.t ha hrbc
    simp only [scanHit, ha, hb, ha']
  · obtain ⟨hran, hrac⟩ := hga.ranged c ra hc ha
    have hb' : b.hit tr hackI ray tmin ra.t = none := hgb.noneMono c ra.t hb hrac
    simp only [scanHit, ha, hb, hb']
  · obtain ⟨hran, hrac⟩ := hga.ranged c ra hc ha
    obtain ⟨hrbn, hrbc⟩ := hgb.ranged c rb hc hb
    have hne : ra.t ≠ rb.t := hties c c ra rb ha hb
    rcases F32.lt_or_lt_of_ne hrbn hran (Ne.symm hne) with hlt | hlt
    · have hb' : b.hit tr hackI ray tmin ra.t = some rb :=
        hgb.stable c ra.t rb hc hran hb (F32.le_of_lt hlt) hrac
      have ha' : a.hit tr hackI ray tmin rb.t = none :=
        hga.noCloser c rb.t ra ha hlt
      simp only [scanHit, ha, hb, ha', hb']
      rcases scanHit tr hackI ray tmin l rb.t with _ | r2 <;> simp
    · have ha' : a.hit tr hackI ray tmin rb.t = some ra :=
        hga.stable c rb.t ra hc hrbn ha (F32.le_of_lt hlt) hrbc
      have hb' : b.hit tr hackI ray tmin ra.t = none :=
        hgb.noCloser c ra.t rb hb hlt
      simp only [scanHit, ha, hb, ha', hb']
      rcases scanHit tr hackI ray tmin l ra.t with _ | r2 <;> simp

theorem scanHit_perm {μ : Type} {tr : Trig}
    {hackI : μ → F32 → F32 → V3 → Bool} {ray : Ray} {tmin : F32} :
    ∀ {objs1 objs2 : List (Hittable μ)}, objs1.Perm objs2 →
      (∀ o ∈ objs1, GoodHit tr hackI o ray tmin) →
      objs1.Pairwise (HitNoTies tr hackI ray tmin) →
      ∀ c : F32, c ≠ F32.nan →
        scanHit tr hackI ray tmin objs1 c = scanHit tr hackI ray tmin objs2 c := by
  intro objs1 objs2 hp
  induction hp with
  | nil => intro _ _ c _; rfl
  | cons x hp' ih =>
    intro hmem hties c hc
    rcases hx : x.hit tr hackI ray tmin c with _ | r
    · simp only [scanHit, hx]
      exact ih (fun o ho => hmem o (List.mem_cons_of_mem _ ho))
        (List.Pairwise.sublist (List.sublist_cons_self x _) hties) c hc
    · simp only [scanHit, hx]
      rw [ih (fun o ho => hmem o (List.mem_cons_of_mem _ ho))
        ((List.pairwise_cons.mp hties).2) r.t
        ((hmem x (List.mem_cons_self _ _)).ranged c r hc hx).1]
  | swap x y l =>
    intro hmem hties c hc
    have hxy : HitNoTies tr hackI ray tmin y x :=
      (List.pairwise_cons.mp hties).1 x (List.mem_cons_self _ _)
    exact (scanHit_swap y x l
      (hmem y (List.mem_cons_self _ _))
      (hmem x (List.mem_cons_of_mem _ (List.mem_cons_self _ _)))
      hxy c hc)
  | trans hp1 hp2 ih1 ih2 =>
    intro hmem hties c hc
    rw [ih1 hmem hties c hc]
    refine ih2 (fun o ho => hmem o (hp1.mem_iff.mpr ho)) ?_ c hc
    exact (List.Perm.pairwise_iff (fun h => h.symm) hp1).mp hties

theorem scanHit_singleton {μ : Type} (tr : Trig)
    (hackI : μ → F32 → F32 → V3 → Bool) (ray : Ray) (tmin : F32)
    (o : Hittable μ) (c : F32) :
    scanHit tr hackI ray tmin [o] c = o.hit tr hackI ray tmin c := by
  rcases ho : o.hit tr hackI ray tmin c with _ | r <;> simp only [scanHit, ho]

theorem scanHit_pair_dup {μ : Type} {tr : Trig}
    {hackI : μ → F32 → F32 → V3 → Bool} {ray : Ray} {tmin : F32}
    (o : Hittable μ) (hgo : GoodHit tr hackI o ray tmin) (c : F32)
    (hc : c ≠ F32.nan) :
    scanHit tr hackI ray tmin [o, o] c = scanHit tr hackI ray tmin [o] c := by
  rcases ho : o.hit tr hackI ray tmin c with _ | r
  · simp only [scanHit, ho]
  · obtain ⟨hrn, hrc⟩ := hgo.ranged c r hc ho
    have ho' : o.hit tr hackI ray tmin r.t = some r :=
      hgo.stable c r.t r hc hrn ho (F32.le_refl hrn) hrc
    simp only [scanHit, ho, ho']

/-- A BVH node whose children compute the scans of `xs` and `ys` and
whose box conservatively covers them computes the scan of `xs ++ ys`. -/
theorem bvhnode_hit_eq_scanHit_append {μ : Type} {tr : Trig}
    {hackI : μ → F32 → F32 → V3 → Bool} {ray : Ray} {tmin : F32}
    (L R : Hittable μ) (box : AABB) (xs ys : List (Hittable μ))
    (hmemxs : ∀ o ∈ xs, GoodHit tr hackI o ray tmin)
    (hL : ∀ c, c ≠ F32.nan →
      L.hit tr hackI ray tmin c = scanHit tr hackI ray tmin xs c)
    (hR : ∀ c, c ≠ F32.nan →
      R.hit tr hackI ray tmin c = scanHit tr hackI ray tmin ys c)
    (hcov : ∀ c, c ≠ F32.nan → box.hit ray tmin c = false →
      L.hit tr hackI ray tmin c = none ∧ R.hit tr hackI ray tmin c = none) :
    ∀ c, c ≠ F32.nan →
      (Hittable.bvhnode L R box).hit tr hackI ray tmin c =
        scanHit tr hackI ray tmin (xs ++ ys) c := by
  intro c hc
  rw [scanHit_append]
  cases hb : box.hit ray tmin c
  · obtain ⟨hLn, hRn⟩ := hcov c hc hb
    have hxs : scanHit tr hackI ray tmin xs c = none := by rw [← hL c hc]; exact hLn
    have hys : scanHit tr hackI ray tmin ys c = none := by rw [← hR c hc]; exact hRn
    simp [Hittable.hit, hb, hxs, hys]
  · simp only [Hittable.hit, hb, Bool.not_true, Bool.false_eq_true, if_false]
    rw [hL c hc]
    rcases hx : scanHit tr hackI ray tmin xs c with _ | r
    · simp only [hx]
      exact hR c hc
    · simp only [hx]
      rw [hR r.t (scanHit_ranged xs hmemxs c r hc hx).1]

theorem bvhNewFuel_hit {μ : Type} {tr : Trig}
    {hackI : μ → F32 → F32 → V3 → Bool} {ray : Ray} {tmin : F32}
    (dflt : Hittable μ) (axisAt : List Bool → Fin 3) :
    ∀ (fuel : ℕ) (objs : List (Hittable μ)) (path : List Bool),
      objs ≠ [] → objs.length ≤ fuel →
      (∀ o ∈ objs, GoodHit tr hackI o ray tmin) →
      objs.Pairwise (HitNoTies tr hackI ray tmin) →
      (BvhNode.newFuel dflt axisAt fuel path objs).covered tr hackI ray tmin →
      ∀ c, c ≠ F32.nan →
        (BvhNode.newFuel dflt axisAt fuel path objs).hit tr hackI ray tmin c =
          scanHit tr hackI ray tmin objs c := by
  intro fuel
  induction fuel with
  | zero =>
    intro objs path hne hlen
    exact absurd (List.length_eq_zero.mp (Nat.le_zero.mp hlen)) hne
  | succ fuel ih =>
    intro objs path hne hlen hmem hties hcov c hc
    rcases objs with _ | ⟨a, rest1⟩
    · exact absurd rfl hne
    rcases rest1 with _ | ⟨b, rest2⟩
    · simp only [BvhNode.newFuel] at hcov ⊢
      simp only [Hittable.covered] at hcov
      have ha := hmem a (List.mem_cons_self _ _)
      have heq := bvhnode_hit_eq_scanHit_append a a
        (AABB.surrounding_box a.bounding_box a.bounding_box) [a] [a]
        (by
          intro o ho
          simp only [List.mem_singleton] at ho
          subst ho
          exact ha)
        (fun c' hc' => (scanHit_singleton tr hackI ray tmin a c').symm)
        (fun c' hc' => (scanHit_singleton tr hackI ray tmin a c').symm)
        (fun c' hc' hb => hcov.1 c' hc' hb) c hc
      rw [heq]
      exact scanHit_pair_dup a ha c hc
    rcases rest2 with _ | ⟨c3, rest⟩
    · simp only [BvhNode.newFuel] at hcov ⊢
      have ha := hmem a (List.mem_cons_self _ _)
      have hb := hmem b (List.mem_cons_of_mem _ (List.mem_cons_self _ _))
      have hab : HitNoTies tr hackI ray tmin a b :=
        (List.pairwise_cons.mp hties).1 b (List.mem_cons_self _ _)
      by_cases hcmp : BvhNode.cmpGt (axisAt path) a b = true
      · rw [if_pos hcmp] at hcov ⊢
        simp only [Hittable.covered] at hcov
        have heq := bvhnode_hit_eq_scanHit_append b a
          (AABB.surrounding_box b.bounding_box a.bounding_box) [b] [a]
          (by
            intro o ho
            simp only [List.mem_singleton] at ho
            subst ho
            exact hb)
          (fun c' hc' => (scanHit_singleton tr hackI ray tmin b c').symm)
          (fun c' hc' => (scanHit_singleton tr hackI ray tmin a c').symm)
          (fun c' hc' hbx => hcov.1 c' hc' hbx) c hc
        rw [heq]
        exact scanHit_swap b a [] hb ha hab.symm c hc
      · rw [if_neg hcmp] at hcov ⊢
        simp only [Hittable.covered] at hcov
        exact bvhnode_hit_eq_scanHit_append a b
          (AABB.surrounding_box a.bounding_box b.bounding_box) [a] [b]
          (by
            intro o ho
            simp only [List.mem_singleton] at ho
            subst ho
            exact ha)
          (fun c' hc' => (scanHit_singleton tr hackI ray tmin a c').symm)
          (fun c' hc' => (scanHit_singleton tr hackI ray tmin b c').symm)
          (fun c' hc' hbx => hcov.1 c' hc' hbx) c hc
    · simp only [BvhNode.newFuel] at hcov ⊢
      revert hcov
      generalize hsort :
        sortBy (BvhNode.cmpLt (axisAt path)) (a :: b :: c3 :: rest) = sorted
      intro hcov
      have hps : sorted.Perm (a :: b :: c3 :: rest) := by
        rw [← hsort]
        exact sortBy_perm _ _
      have hlen2 : sorted.length = rest.length + 3 := by
        rw [hps.length_eq]
        simp
      have hlen3 : rest.length + 3 ≤ fuel + 1 := by
        simpa using hlen
      have hmemS : ∀ o ∈ sorted, GoodHit tr hackI o ray tmin :=
        fun o ho => hmem o (hps.mem_iff.mp ho)
      have htiesS : sorted.Pairwise (HitNoTies tr hackI ray tmin) :=
        (List.Perm.pairwise_iff (fun h => h.symm) hps).mpr hties
      simp only [Hittable.covered] at hcov
      obtain ⟨hbox, hcovL, hcovR⟩ := hcov
      have hxsne : sorted.take (sorted.length / 2) ≠ [] := by
        apply List.ne_nil_of_length_pos
        rw [List.length_take]
        omega
      have hysne : sorted.drop (sorted.length / 2) ≠ [] := by
        apply List.ne_nil_of_length_pos
        rw [List.length_drop]
        omega
      have hxslen : (sorted.take (sorted.length / 2)).length ≤ fuel := by
        rw [List.length_take]
        omega
      have hyslen : (sorted.drop (sorted.length / 2)).length ≤ fuel := by
        rw [List.length_drop]
        omega
      have hmemxs : ∀ o ∈ sorted.take (sorted.length / 2),
          GoodHit tr hackI o ray tmin :=
        fun o ho => hmemS o (List.take_subset _ _ ho)
      have hmemys : ∀ o ∈ sorted.drop (sorted.length / 2),
          GoodHit tr hackI o ray tmin :=
        fun o ho => hmemS o (List.drop_subset _ _ ho)
      have htiesxs := List.Pairwise.sublist
        (List.take_sublist (sorted.length / 2) sorted) htiesS
      have htiesys := List.Pairwise.sublist
        (List.drop_sublist (sorted.length / 2) sorted) htiesS
      have hL := ih (sorted.take (sorted.length / 2)) (false :: path) hxsne
        hxslen hmemxs htiesxs hcovL
      have hR := ih (sorted.drop (sorted.length / 2)) (true :: path) hysne
        hyslen hmemys htiesys hcovR
      have heq := bvhnode_hit_eq_scanHit_append _ _ _
        (sorted.take (sorted.length / 2)) (sorted.drop (sorted.length / 2))
        hmemxs hL hR (fun c' hc' hbx => hbox c' hc' hbx) c hc
      rw [heq, List.take_append_drop]
      exact scanHit_perm hps hmemS htiesS c hc

/-- C1: a freshly constructed `BvhNode` over a list of objects produces
the same hit result as the brute-force `HittableList` scan over the same
objects, provided the upper bound is not NaN, every object's `hit`
satisfies the range/stability/monotonicity contract, no two objects ever
tie on `t`, and every box of the built tree conservatively covers its
subtree (whenever the slab test rejects, both children miss).  Without
these side conditions the equivalence fails (see the counterexample). -/
theorem bvh_hit_eq_list_hit {μ : Type} (tr : Trig)
    (hackI : μ → F32 → F32 → V3 → Bool) (dflt : Hittable μ)
    (axisAt : List Bool → Fin 3) (objs objs2 : List (Hittable μ))
    (ray : Ray) (tmin tmax : F32)
    (hperm : objs.Perm objs2) (hne : objs2 ≠ [])
    (hmem : ∀ o ∈ objs, GoodHit tr hackI o ray tmin)
    (hties : objs.Pairwise (HitNoTies tr hackI ray tmin))
    (hcov : (BvhNode.new dflt axisAt objs2).covered tr hackI ray tmin)
    (htmax : tmax ≠ F32.nan) :
    (BvhNode.new dflt axisAt objs2).hit tr hackI ray tmin tmax =
      HittableList.hit tr hackI objs ray tmin tmax := by
  rw [hitList_eq_scanHit]
  have hmem2 : ∀ o ∈ objs2, GoodHit tr hackI o ray tmin :=
    fun o ho => hmem o (hperm.mem_iff.mpr ho)
  have hties2 : objs2.Pairwise (HitNoTies tr hackI ray tmin) :=
    (List.Perm.pairwise_iff (fun h => h.symm) hperm).mp hties
  simp only [BvhNode.new] at hcov ⊢
  rw [bvhNewFuel_hit dflt axisAt objs2.length objs2 [] hne le_rfl
    hmem2 hties2 hcov tmax htmax]
  exact scanHit_perm hperm.symm hmem2 hties2 tmax htmax

/-- C1, counterexample: on the concrete scene `[rectA, rectB, rectC]`
and the corner-grazing ray `rayCE` with interval `[0.001, 100]`, the
freshly built BVH and the brute-force list scan disagree: the BVH
returns the hit at `t = 6` (on `rectB`) while the list returns the
closer hit at `t = 1` (on `rectA`), because the slab test of the
one-element node built over `rectA` rejects the ray that grazes the
box's corner. -/
theorem bvh_vs_list_counterexample :
    (BvhNode.new rectA axis0 [rectA, rectB, rectC]).hit trig0 hackTrue rayCE
      (F32.fin (1 / 1000)) (F32.fin 100) ≠
    HittableList.hit trig0 hackTrue [rectA, rectB, rectC] rayCE
      (F32.fin (1 / 1000)) (F32.fin 100) := by
  have h1 : ((BvhNode.new rectA axis0 [rectA, rectB, rectC]).hit trig0 hackTrue
      rayCE (F32.fin (1 / 1000)) (F32.fin 100)).map (fun r => r.t) =
      some (F32.fin 6) := by
    norm_num [BvhNode.new, BvhNode.newFuel, BvhNode.cmpLt, BvhNode.cmpGt,
      sortBy, insertBy, Hittable.bounding_box, Hittable.rectPad,
      AABB.surrounding_box, AABB.hit, AABB.slabAxis, Hittable.hit,
      Hittable.planeT, rectA, rectB, rectC, rayCE, trig0, hackTrue, axis0,
      F32.totalCmp_fin_fin, compare, compareOfLessAndEq, F32.lt, F32.gt,
      F32.le, F32.add_fin_fin, F32.sub_fin_fin, F32.mul_fin_fin, F32.div,
      F32.neg_fin, F32.min_fin_fin, F32.max_fin_fin, V3.dot, Ray.at, V3.add,
      V3.smul, V3.sub, V3.vmin, V3.vmax, V3.get, V3.splat]
  have h2 : (HittableList.hit trig0 hackTrue [rectA, rectB, rectC]
      rayCE (F32.fin (1 / 1000)) (F32.fin 100)).map (fun r => r.t) =
      some (F32.fin 1) := by
    norm_num [HittableList.hit, HittableList.hitGo, Hittable.hit,
      Hittable.planeT, rectA, rectB, rectC, rayCE, trig0, hackTrue, F32.lt,
      F32.gt, F32.le, F32.add_fin_fin, F32.sub_fin_fin, F32.mul_fin_fin,
      F32.div, F32.neg_fin, V3.dot, Ray.at, V3.add, V3.smul, V3.sub]
  intro he
  rw [he, h2] at h1
  simp only [Option.some.injEq, F32.fin.injEq] at h1
  norm_num at h1

/-- C1, witness: the amended equivalence applied to the singleton scene
`[rectC]`, whose only object is missed by the test ray at every upper
bound, so every side condition holds and both traversals return none. -/
theorem bvh_hit_eq_list_hit_witness :
    (BvhNode.new rectC axis0 [rectC]).hit trig0 hackTrue rayCE
      (F32.fin (1 / 1000)) (F32.fin 100) =
    HittableList.hit trig0 hackTrue [rectC] rayCE
      (F32.fin (1 / 1000)) (F32.fin 100) := by
  have hgood : GoodHit trig0 hackTrue rectC rayCE (F32.fin (1 / 1000)) := by
    constructor
    · intro c r _ hr
      rw [rectC_miss] at hr
      exact Option.noConfusion hr
    · intro c c' r _ _ hr _ _
      rw [rectC_miss] at hr
      exact Option.noConfusion hr
    · intro c c' r hr _
      rw [rectC_miss] at hr
      exact Option.noConfusion hr
    · intro c c' _ _
      exact rectC_miss c'
  have hcov : (BvhNode.new rectC axis0 [rectC]).covered trig0 hackTrue rayCE
      (F32.fin (1 / 1000)) := by
    simp only [BvhNode.new, List.length_singleton, BvhNode.newFuel,
      Hittable.covered]
    exact ⟨fun c _ _ => ⟨rectC_miss c, rectC_miss c⟩, trivial, trivial⟩
  exact bvh_hit_eq_list_hit trig0 hackTrue rectC axis0 [rectC] [rectC] rayCE
    (F32.fin (1 / 1000)) (F32.fin 100) (List.Perm.refl _) (by simp)
    (fun o ho => by
      rw [List.mem_singleton] at ho
      subst ho
      exact hgood)
    (by simp) hcov (by simp)
